import Mathlib

/-!
Verification of the pycro-manager acquisition core
(`pycromanager/acquisition/acquisition_superclass.py`).

The development shallowly embeds the event-sequence generator
`multi_d_acquisition_events`, the event validators, the notification
dispatcher loop and the `Acquisition.acquire` submission path, and proves
the testable properties of the specification against these embeddings.

Numbers are modelled by `ℚ` (the inputs of interest are exact:
integer-valued time indices, z positions and step sizes), Python dicts of
axes by insertion-ordered association lists, and raised exceptions by
`Except`/`Option` results.
-/

set_option autoImplicit false

namespace PycroManager

/-- An axis coordinate value: an integer index or a string label
(Python axis values are ints or strings). -/
inductive AxVal where
  | i : Int → AxVal
  | s : String → AxVal
deriving DecidableEq, Repr

/-- The literal `z` entry of an event: normally a single stage coordinate;
iterating a 2-D numpy array row-wise can also place a whole row there. -/
inductive ZVal where
  | num : ℚ → ZVal
  | arr : List ℚ → ZVal
deriving DecidableEq, Repr

/-- `time_interval_s`: either a scalar or a list of per-step intervals. -/
inductive TimeInterval where
  | scalar : ℚ → TimeInterval
  | list : List ℚ → TimeInterval
deriving DecidableEq, Repr

/-- Python dict assignment `d[k] = v` on an insertion-ordered association
list: overwrite in place if the key exists, else append at the end. -/
def axesInsert (k : String) (v : AxVal) : List (String × AxVal) → List (String × AxVal)
  | [] => [(k, v)]
  | (k', v') :: rest => if k' = k then (k, v) :: rest else (k', v') :: axesInsert k v rest

/-- Python dict lookup `d.get(k)`. -/
def axesGet (k : String) : List (String × AxVal) → Option AxVal
  | [] => none
  | (k', v) :: rest => if k' = k then some v else axesGet k rest

/-- `list.index`, total variant: first index of `x`, or the length if absent
(the absent case is unreachable on the paths the code exercises). -/
def listIndexOf {α : Type} [DecidableEq α] (x : α) : List α → Nat
  | [] => 0
  | y :: ys => if y = x then 0 else listIndexOf x ys + 1

/-- `np.cumsum`: running sums, inclusive of the current element. -/
def cumsum : List ℚ → List ℚ
  | [] => []
  | x :: rest => x :: (cumsum rest).map (fun y => x + y)

/-- Length of `np.arange(start, stop, step)` for exact arithmetic:
`max 0 ⌈(stop - start) / step⌉` (0 for a zero step, where numpy raises). -/
def arangeLen (start stop step : ℚ) : Nat :=
  if step = 0 then 0 else (⌈(stop - start) / step⌉).toNat

/-- `np.arange(start, stop, step)` for exact arithmetic. -/
def arange (start stop step : ℚ) : List ℚ :=
  (List.range (arangeLen start stop step)).map (fun i : Nat => start + (i : ℚ) * step)

/-- An acquisition event record, as built by `multi_d_acquisition_events`:
the `axes` dict plus the optional scheduling fields the generator writes. -/
structure Event where
  axes : List (String × AxVal) := []
  min_start_time : Option ℚ := none
  z : Option ZVal := none
  x : Option ℚ := none
  y : Option ℚ := none
  config_group : Option (String × String) := none
  exposure : Option ℚ := none
deriving DecidableEq, Repr

/-- The base event `{"axes": {}}` generation starts from. -/
def emptyEvent : Event := {}

/-- The arguments of `multi_d_acquisition_events`, with the Python defaults. -/
structure MDAArgs where
  num_time_points : Option Int := none
  time_interval_s : TimeInterval := .scalar 0
  z_start : Option ℚ := none
  z_end : Option ℚ := none
  z_step : Option ℚ := none
  channel_group : Option String := none
  channels : Option (List String) := none
  channel_exposures_ms : Option (List ℚ) := none
  xy_positions : Option (List (ℚ × ℚ)) := none
  xyz_positions : Option (List (ℚ × ℚ × ℚ)) := none
  position_labels : Option (List AxVal) := none
  order : String := "tpcz"

/-- Python truthiness of an optional number: `None` and `0` are falsy. -/
def truthy : Option ℚ → Bool
  | none => false
  | some q => decide (q ≠ 0)

/-- `any([z_start, z_step, z_end])` from the source (truthiness semantics). -/
def hasZtruthy (a : MDAArgs) : Bool :=
  truthy a.z_start || truthy a.z_step || truthy a.z_end

/-- `not None in [z_start, z_step, z_end]` from the source. -/
def allZSome (a : MDAArgs) : Bool :=
  a.z_start.isSome && a.z_step.isSome && a.z_end.isSome

/-- `has_zsteps` as the source computes it (on non-raising runs). -/
def hasZsteps (a : MDAArgs) : Bool := hasZtruthy a && allZSome a

/-- The z-position table the generator consults: either one flat ramp
(1-D numpy array) or one row per stage position (2-D numpy array). -/
inductive ZPositions where
  | flat : List ℚ → ZPositions
  | per : List (List ℚ) → ZPositions
deriving DecidableEq, Repr

/-- The xy coordinate list after the positions block: `xy_positions` as
given, or the first two columns of `xyz_positions`. -/
def xyFromArgs (a : MDAArgs) : Option (List (ℚ × ℚ)) :=
  match a.xy_positions with
  | some xys => some xys
  | none =>
    match a.xyz_positions with
    | some ps => some (ps.map (fun p => (p.1, p.2.1)))
    | none => none

/-- `z_positions` right after the positions block (before the z-step
block): `xyz_positions[:, 2][:, None]`, one singleton row per position. -/
def zposFromPositions (a : MDAArgs) : Option ZPositions :=
  match a.xy_positions with
  | some _ => none
  | none =>
    match a.xyz_positions with
    | some ps => some (.per (ps.map (fun p => [p.2.2])))
    | none => none

/-- `z_rel = np.arange(z_start, z_end + z_step, z_step)`. -/
def zRel (a : MDAArgs) : List ℚ :=
  arange (a.z_start.getD 0) (a.z_end.getD 0 + a.z_step.getD 0) (a.z_step.getD 0)

/-- The final `z_positions` table: with z steps, the flat ramp (no
positions), the ramp broadcast to every position (`xy_positions`), or each
position's own z plus the ramp (`xyz_positions`); without z steps,
whatever the positions block produced. -/
def zPositionsOf (a : MDAArgs) : Option ZPositions :=
  if hasZsteps a then
    match zposFromPositions a with
    | none =>
      match xyFromArgs a with
      | none => some (.flat (zRel a))
      | some xys => some (.per (xys.map (fun _ => zRel a)))
    | some (.per rows) => some (.per (rows.map (fun r => (zRel a).map (fun v => r.headD 0 + v))))
    | some (.flat zs) => some (.flat zs)
  else zposFromPositions a

/-- `position_labels`, defaulted to `list(range(len(xy_positions)))` when
positions are present and no labels were given. -/
def labelsOf (a : MDAArgs) : Option (List AxVal) :=
  match a.position_labels with
  | some ls => some ls
  | none =>
    match xyFromArgs a with
    | some xys => some ((List.range xys.length).map (fun i : Nat => AxVal.i (i : Int)))
    | none => none

/-- The context the nested `generate_events` closure reads (the enclosing
function's locals after validation and derivation). -/
structure GenCtx where
  num_time_points : Option Int := none
  time_interval_s : TimeInterval := .scalar 0
  z_positions : Option ZPositions := none
  xy_positions : Option (List (ℚ × ℚ)) := none
  position_labels : Option (List AxVal) := none
  channel_group : Option String := none
  channels : Option (List String) := none
  channel_exposures_ms : Option (List ℚ) := none

/-- The generator context derived from the arguments. -/
def buildCtx (a : MDAArgs) : GenCtx where
  num_time_points := a.num_time_points
  time_interval_s := a.time_interval_s
  z_positions := zPositionsOf a
  xy_positions := xyFromArgs a
  position_labels := labelsOf a
  channel_group := a.channel_group
  channels := a.channels
  channel_exposures_ms := a.channel_exposures_ms

/-- `np.arange(num_time_points)` size (the guard ensures positivity). -/
def timePointsNat (c : GenCtx) : Nat := (c.num_time_points.getD 0).toNat

/-- One iteration of the time loop: set `axes["time"]`, then
`min_start_time` from the cumulative list, or `index * interval`
unless the scalar interval is 0. -/
def timeBranchEvent (ti : TimeInterval) (e : Event) (i : Nat) : Event :=
  let e1 : Event := { e with axes := axesInsert "time" (AxVal.i i) e.axes }
  match ti with
  | .list l => { e1 with min_start_time := some ((cumsum l).getD i 0) }
  | .scalar s => if s ≠ 0 then { e1 with min_start_time := some ((i : ℚ) * s) } else e1

/-- The row of z values the z branch iterates: the current position's row
(selected by `position_labels.index(event["axes"]["position"])`) when a
position axis is set, else the whole table. -/
def zSelect (c : GenCtx) (e : Event) : List ZVal :=
  match axesGet "position" e.axes with
  | some l =>
    match c.z_positions with
    | some (.per rows) => (rows.getD (listIndexOf l (c.position_labels.getD [])) []).map ZVal.num
    | some (.flat _) => []
    | none => []
  | none =>
    match c.z_positions with
    | some (.per rows) => rows.map ZVal.arr
    | some (.flat zs) => zs.map ZVal.num
    | none => []

/-- One iteration of the z loop: set `axes["z"]` to the step index and `z`
to the stage coordinate. -/
def zBranchEvent (c : GenCtx) (e : Event) (j : Nat) : Event :=
  { e with axes := axesInsert "z" (AxVal.i j) e.axes,
           z := some ((zSelect c e).getD j (ZVal.num 0)) }

/-- One iteration of the position loop: set `axes["position"]` to the label
and the literal `x`/`y` coordinates. -/
def pBranchEvent (e : Event) (lxy : AxVal × (ℚ × ℚ)) : Event :=
  { e with axes := axesInsert "position" lxy.1 e.axes,
           x := some lxy.2.1, y := some lxy.2.2 }

/-- One iteration of the channel loop: set `config_group`,
`axes["channel"]`, and `exposure` when an exposure list was supplied. -/
def cBranchEvent (c : GenCtx) (e : Event) (i : Nat) : Event :=
  let g := c.channel_group.getD ""
  let chs := c.channels.getD []
  let e1 : Event := { e with config_group := some (g, chs.getD i ""),
                             axes := axesInsert "channel" (AxVal.s (chs.getD i "")) e.axes }
  match c.channel_exposures_ms with
  | some es => { e1 with exposure := some (es.getD i 0) }
  | none => e1

/-- The events one nesting level produces before recursing, per branch. -/
def tEvents (c : GenCtx) (e : Event) : List Event :=
  (List.range (timePointsNat c)).map (timeBranchEvent c.time_interval_s e)

/-- The z-level events (see `tEvents`). -/
def zEvents (c : GenCtx) (e : Event) : List Event :=
  (List.range (zSelect c e).length).map (zBranchEvent c e)

/-- The position-level events (see `tEvents`). -/
def pEvents (c : GenCtx) (e : Event) : List Event :=
  ((c.position_labels.getD []).zip (c.xy_positions.getD [])).map (pBranchEvent e)

/-- The channel-level events (see `tEvents`). -/
def cEvents (c : GenCtx) (e : Event) : List Event :=
  (List.range (c.channels.getD []).length).map (cBranchEvent c e)

/-- `num_time_points is not None and num_time_points > 0`. -/
def tActiveCtx (c : GenCtx) : Bool :=
  match c.num_time_points with
  | some n => decide (0 < n)
  | none => false

/-- Guard of the time branch:
`order[0] == "t" and num_time_points is not None and num_time_points > 0`. -/
def tGuard (c : GenCtx) (o : Char) : Prop :=
  o = 't' ∧ tActiveCtx c = true

/-- Guard of the z branch: `order[0] == "z" and z_positions is not None`. -/
def zGuard (c : GenCtx) (o : Char) : Prop := o = 'z' ∧ c.z_positions.isSome = true

/-- Guard of the position branch:
`order[0] == "p" and xy_positions is not None`. -/
def pGuard (c : GenCtx) (o : Char) : Prop := o = 'p' ∧ c.xy_positions.isSome = true

/-- Guard of the channel branch:
`order[0] == "c" and channel_group is not None and channels is not None`. -/
def cGuard (c : GenCtx) (o : Char) : Prop :=
  o = 'c' ∧ (c.channel_group.isSome = true ∧ c.channels.isSome = true)

instance (c : GenCtx) (o : Char) : Decidable (tGuard c o) := by
  unfold tGuard; exact instDecidableAnd

instance (c : GenCtx) (o : Char) : Decidable (zGuard c o) := by
  unfold zGuard; exact instDecidableAnd

instance (c : GenCtx) (o : Char) : Decidable (pGuard c o) := by
  unfold pGuard; exact instDecidableAnd

instance (c : GenCtx) (o : Char) : Decidable (cGuard c o) := by
  unfold cGuard; exact instDecidableAnd

/-- The recursive `generate_events` closure, flattened the way `appender`
flattens the nested generators: each axis letter of `order` whose guard
holds expands one nesting level, any other letter is skipped, and the
innermost level emits the accumulated event. -/
def generate_events (c : GenCtx) : Event → List Char → List Event
  | e, [] => [e]
  | e, o :: rest =>
    if tGuard c o then (tEvents c e).flatMap (fun e' => generate_events c e' rest)
    else if zGuard c o then (zEvents c e).flatMap (fun e' => generate_events c e' rest)
    else if pGuard c o then (pEvents c e).flatMap (fun e' => generate_events c e' rest)
    else if cGuard c o then (cEvents c e).flatMap (fun e' => generate_events c e' rest)
    else generate_events c e rest

def errBothPositions : String := "xyz_positions and xy_positions are incompatible arguments that cannot be passed together"
def errOrderPZ : String := "This function requires that the xy position come earlier in the order than z"
def errTimeLen : String := "Length of time interval list should be equal to num_time_points"
def errXYLabels : String := "xy_positions and position_labels must be of equal length"
def errXYZLabels : String := "xyz_positions and position_labels must be of equal length"
def errZAllOrNone : String := "All of z_start, z_step, and z_end must be provided"
def errArangeZeroStep : String := "np.arange does not accept a zero step"

/-- `order.lower()` as a character list. -/
def lowerOrder (a : MDAArgs) : List Char := a.order.data.map Char.toLower

/-- `isinstance(time_interval_s, list) and len(time_interval_s) != num_time_points`
(comparing an int to `None` is unequal in Python). -/
def tiLenBad (a : MDAArgs) : Bool :=
  match a.time_interval_s with
  | .list l => !(a.num_time_points == some (l.length : Int))
  | .scalar _ => false

/-- `position_labels is not None and xy_positions is not None and len(xy_positions) != len(position_labels)`. -/
def xyLabelsBad (a : MDAArgs) : Bool :=
  match a.position_labels, a.xy_positions with
  | some pl, some xys => !(xys.length == pl.length)
  | _, _ => false

/-- `position_labels is not None and xyz_positions is not None and len(xyz_positions) != len(position_labels)`. -/
def xyzLabelsBad (a : MDAArgs) : Bool :=
  match a.position_labels, a.xyz_positions with
  | some pl, some ps => !(ps.length == pl.length)
  | _, _ => false

/-- The fail-fast validation chain of `multi_d_acquisition_events`, in
source order; `some msg` is a raised `ValueError`. The last check models
numpy raising on `np.arange` with a zero step. -/
def mdCheck (a : MDAArgs) : Option String :=
  if a.xy_positions.isSome && a.xyz_positions.isSome then some errBothPositions
  else if 'p' ∈ lowerOrder a ∧ 'z' ∈ lowerOrder a ∧
      listIndexOf 'z' (lowerOrder a) < listIndexOf 'p' (lowerOrder a) then some errOrderPZ
  else if tiLenBad a then some errTimeLen
  else if xyLabelsBad a then some errXYLabels
  else if xyzLabelsBad a then some errXYZLabels
  else if hasZtruthy a && !allZSome a then some errZAllOrNone
  else if hasZsteps a && (a.z_step == some 0) then some errArangeZeroStep
  else none

/-- `multi_d_acquisition_events`: validate, derive the position/z/label
tables, then run the order-driven nested generation from `{"axes": {}}`. -/
def multi_d_acquisition_events (a : MDAArgs) : Except String (List Event) :=
  match mdCheck a with
  | some msg => .error msg
  | none => .ok (generate_events (buildCtx a) emptyEvent (lowerOrder a))

/-! ## Object-identity instrumentation of the generator

Python's generator builds each `new_event` with `copy.deepcopy` before
mutating it, so no two emitted events share a dict.  To reason about that
aliasing structure we pair each event with the identity of its underlying
dict object: `deepcopy` allocates a fresh identity from a counter, the
skip branch passes the same object through, and the innermost level emits
the object it was handed. -/

/-- Run one nesting level over the level's events: each iteration
deep-copies (fresh identity `k`), recurses via `g`, and concatenates. -/
def runLevel (g : Event × Nat → Nat → List (Event × Nat) × Nat) :
    List Event → Nat → List (Event × Nat) × Nat
  | [], k => ([], k)
  | e :: es, k =>
    let r1 := g (e, k) (k + 1)
    let r2 := runLevel g es r1.2
    (r1.1 ++ r2.1, r2.2)

/-- `generate_events` with object identities (see `runLevel`). -/
def generate_events_ids (c : GenCtx) : Event × Nat → List Char → Nat → List (Event × Nat) × Nat
  | p, [], k => ([p], k)
  | p, o :: rest, k =>
    if tGuard c o then runLevel (fun q k' => generate_events_ids c q rest k') (tEvents c p.1) k
    else if zGuard c o then runLevel (fun q k' => generate_events_ids c q rest k') (zEvents c p.1) k
    else if pGuard c o then runLevel (fun q k' => generate_events_ids c q rest k') (pEvents c p.1) k
    else if cGuard c o then runLevel (fun q k' => generate_events_ids c q rest k') (cEvents c p.1) k
    else generate_events_ids c p rest k

/-- `multi_d_acquisition_events` with object identities: the base event
gets identity `k` and generation allocates from `k + 1` up. -/
def multi_d_events_ids (a : MDAArgs) (k : Nat) : Option (List (Event × Nat)) :=
  match mdCheck a with
  | some _ => none
  | none => some (generate_events_ids (buildCtx a) (emptyEvent, k) (lowerOrder a) (k + 1)).1

/-! ## Event validation (`_validate_acq_dict` / `_validate_acq_events`) -/

/-- A user-submitted event dict as the validator sees it: the `axes` key
may be absent, and the deprecated top-level `row`/`col` keys may be
present. -/
structure RawEvent where
  axes : Option (List (String × AxVal)) := none
  row : Option AxVal := none
  col : Option AxVal := none
deriving DecidableEq, Repr

def errNoAxes : String := "event dictionary must contain an axes key. This event will be ignored"
def errEmptyList : String := "events list cannot be empty"
def rowDeprecationWarning : String := "adding row as a top level key in the event dictionary is deprecated"
def colDeprecationWarning : String := "adding col as a top level key in the event dictionary is deprecated"

/-- `_validate_acq_dict`: reject a missing `axes` key; copy a deprecated
top-level `row`/`col` value into `axes["row"]`/`axes["column"]` with a
warning (the top-level key itself is left in place, as in the source). -/
def _validate_acq_dict (e : RawEvent) : Except String (RawEvent × List String) :=
  match e.axes with
  | none => .error errNoAxes
  | some ax =>
    let s1 : List (String × AxVal) × List String :=
      match e.row with
      | some v => (axesInsert "row" v ax, [rowDeprecationWarning])
      | none => (ax, [])
    let s2 : List (String × AxVal) × List String :=
      match e.col with
      | some v => (axesInsert "column" v s1.1, s1.2 ++ [colDeprecationWarning])
      | none => s1
    .ok ({ e with axes := some s2.1 }, s2.2)

/-- A submission: one event dict or a list of event dicts. -/
inductive EventsArg where
  | single : RawEvent → EventsArg
  | list : List RawEvent → EventsArg
deriving DecidableEq, Repr

/-- Validate each member of an event list, first failure wins,
warnings concatenated. -/
def validateEventList : List RawEvent → Except String (List RawEvent × List String)
  | [] => .ok ([], [])
  | e :: rest =>
    match _validate_acq_dict e with
    | .error m => .error m
    | .ok (e', w) =>
      match validateEventList rest with
      | .error m => .error m
      | .ok (rest', ws) => .ok (e' :: rest', w ++ ws)

/-- `_validate_acq_events`: a dict is validated directly; a list must be
non-empty and every member is validated. -/
def _validate_acq_events : EventsArg → Except String (EventsArg × List String)
  | .single e =>
    match _validate_acq_dict e with
    | .error m => .error m
    | .ok (e', w) => .ok (.single e', w)
  | .list es =>
    if es.isEmpty then .error errEmptyList
    else
      match validateEventList es with
      | .error m => .error m
      | .ok (es', ws) => .ok (.list es', ws)

/-! ## The submission path (`Acquisition.acquire`) -/

/-- The errors `acquire` can raise: the dedicated
`AcqAlreadyCompleteException`, or a plain validation exception. -/
inductive AcqError where
  | alreadyComplete : String → AcqError
  | validationError : String → AcqError
deriving DecidableEq, Repr

def acqAlreadyCompleteMsg : String := "Cannot submit more events because this acquisition is already finished"

/-- The acquisition-coordinator state `acquire` touches: the event queue
(`none` entries are the shutdown sentinel), the registry of weakly-held
futures (`none` entries are dead referents), the engine's
`are_events_finished()` report, and an identity counter for new futures. -/
structure AcqState where
  event_queue : List (Option EventsArg) := []
  acq_futures : List (Option Nat) := []
  events_finished : Bool := false
  next_future_id : Nat := 0
deriving DecidableEq, Repr

/-- `Acquisition.acquire`: raise `AcqAlreadyCompleteException` if the
engine reports events finished; on `None` enqueue the shutdown sentinel
and return no future; otherwise validate, register a fresh weakly-held
future (compacting dead refs), enqueue, and return the future. -/
def acquire (st : AcqState) (arg : Option EventsArg) : Except AcqError (AcqState × Option Nat) :=
  if st.events_finished then .error (.alreadyComplete acqAlreadyCompleteMsg)
  else
    match arg with
    | none => .ok ({ st with event_queue := st.event_queue ++ [none] }, none)
    | some evs =>
      match _validate_acq_events evs with
      | .error m => .error (.validationError m)
      | .ok (evs', _) =>
        let fid := st.next_future_id
        let registry := (st.acq_futures ++ [some fid]).filter (fun f => f.isSome)
        .ok ({ st with acq_futures := registry,
                       event_queue := st.event_queue ++ [some evs'],
                       next_future_id := fid + 1 }, some fid)

/-! ## The notification dispatcher (`_start_notification_dispatcher`) -/

/-- Modelled from the spec: `AcqNotification` (defined in
`pycromanager/acq_future.py`, which is not part of the sources here) is a
tagged progress notification; the *acquisition events finished* and
*data sink finished* tags are the two sentinel kinds, all other
notifications carry some other tag. -/
inductive Notification where
  | acqEventsFinished : Notification
  | dataSinkFinished : Notification
  | other : Nat → Notification
deriving DecidableEq, Repr

/-- Modelled from the spec:
`AcqNotification.is_acquisition_finished_notification`. -/
def isAcqFinishedNotification : Notification → Bool
  | .acqEventsFinished => true
  | _ => false

/-- Modelled from the spec:
`AcqNotification.is_data_sink_finished_notification`. -/
def isDataSinkFinishedNotification : Notification → Bool
  | .dataSinkFinished => true
  | _ => false

/-- What one run of the dispatcher loop did: the notifications it consumed,
the (future, notification) deliveries, the user-callback invocations, and
whether the loop exited its `while True` (rather than blocking forever on
an exhausted queue). -/
structure DispatchResult where
  processed : List Notification
  delivered : List (Nat × Notification)
  callbackCalls : List Notification
  terminated : Bool
deriving DecidableEq, Repr

/-- The identities of the still-live futures in the registry (dead weak
references are skipped). -/
def liveIds (futures : List (Option Nat)) : List Nat := futures.filterMap id

/-- The `dispatch_notifications` loop body, run over the stream of queued
notifications with the two local sentinel flags: update the flags, notify
every live future, invoke the user callback if configured, and break once
both flags are set.  An exhausted stream models the loop blocking on
`queue.get` forever. -/
def dispatch_notifications (futures : List (Option Nat)) (hasCallback : Bool) :
    Bool → Bool → List Notification → DispatchResult
  | _, _, [] => ⟨[], [], [], false⟩
  | ef, dsf, n :: rest =>
    let ef' := ef || isAcqFinishedNotification n
    let dsf' := dsf || (!isAcqFinishedNotification n && isDataSinkFinishedNotification n)
    let del := (liveIds futures).map (fun fid => (fid, n))
    let cb := if hasCallback then [n] else []
    if ef' && dsf' then ⟨[n], del, cb, true⟩
    else
      let r := dispatch_notifications futures hasCallback ef' dsf' rest
      ⟨n :: r.processed, del ++ r.delivered, cb ++ r.callbackCalls, r.terminated⟩

/-- Whether the generator branch of an axis letter is enabled in the
context (the branch guards of `generate_events`, per letter). -/
def letterActive (c : GenCtx) (ch : Char) : Bool :=
  if ch = 't' then tActiveCtx c
  else if ch = 'z' then c.z_positions.isSome
  else if ch = 'p' then c.xy_positions.isSome
  else if ch = 'c' then c.channel_group.isSome && c.channels.isSome
  else false

/-- The axes key an active letter contributes to every event. -/
def letterKey (ch : Char) : String :=
  if ch = 't' then "time"
  else if ch = 'z' then "z"
  else if ch = 'p' then "position"
  else "channel"

/-- The (uniform) number of z values per event: the flat ramp's length, or
the common row length of the per-position table. -/
def zCardCtx (c : GenCtx) : Nat :=
  match c.z_positions with
  | some (.flat zvals) => zvals.length
  | some (.per rows) => (rows.headD []).length
  | none => 1

/-- The loop cardinality an active letter contributes to the sequence
length. -/
def letterCard (c : GenCtx) (ch : Char) : Nat :=
  if ch = 't' then timePointsNat c
  else if ch = 'z' then zCardCtx c
  else if ch = 'p' then (c.xy_positions.getD []).length
  else (c.channels.getD []).length

/-- The argument record for a 3-D-position acquisition with a relative z
ramp and order `"pz"` (all other arguments left at their defaults). -/
def mdaXYZArgs (pts : List (ℚ × ℚ × ℚ)) (zs ze zst : ℚ) : MDAArgs where
  z_start := some zs
  z_end := some ze
  z_step := some zst
  xyz_positions := some pts
  order := "pz"

/-- The specification's worked example for the length product: 3 time
points, 2 channels, 4 z steps (order left at the default `"tpcz"`). -/
def mdaC1Args : MDAArgs where
  num_time_points := some 3
  channel_group := some "Channel"
  channels := some ["DAPI", "FITC"]
  z_start := some 0
  z_end := some 6
  z_step := some 2

/-! ## Spec-side formulas (stated from the specification's words, to be
compared with the source-derived definitions) -/

/-- Spec-side `min_start_time` of the time axis: for a list interval, the
cumulative sum of the list up to and including the index; for a scalar,
`index * interval`, omitted entirely when the scalar is exactly zero. -/
def specTimeMST (ti : TimeInterval) (i : Nat) : Option ℚ :=
  match ti with
  | .list l => some ((l.take (i + 1)).sum)
  | .scalar s => if s = 0 then none else some ((i : ℚ) * s)

deriving instance DecidableEq for Except

/-! ## Basic lemmas -/

/-- Looking up the key just inserted. -/
theorem axesGet_insert_self (k : String) (v : AxVal) (ax : List (String × AxVal)) :
    axesGet k (axesInsert k v ax) = some v := by
  induction ax with
  | nil => simp [axesInsert, axesGet]
  | cons h t ih =>
    by_cases hk : h.1 = k
    · simp [axesInsert, hk, axesGet]
    · simp [axesInsert, hk, axesGet, ih]

/-- Inserting one key does not change the lookup of another. -/
theorem axesGet_insert_ne (k k' : String) (v : AxVal) (ax : List (String × AxVal))
    (h : k' ≠ k) : axesGet k (axesInsert k' v ax) = axesGet k ax := by
  induction ax with
  | nil => simp [axesInsert, axesGet, h]
  | cons hd t ih =>
    by_cases h1 : hd.1 = k'
    · simp [axesInsert, axesGet, h1, h]
    · by_cases h2 : hd.1 = k
      · have h3 : k ≠ k' := fun hh => h hh.symm
        simp [axesInsert, axesGet, h1, h2, h3]
      · simp [axesInsert, axesGet, h1, h2, ih]

/-- Inserting a fresh key appends it at the end of the key list. -/
theorem axesKeys_insert_fresh (k : String) (v : AxVal) (ax : List (String × AxVal))
    (h : k ∉ ax.map Prod.fst) :
    (axesInsert k v ax).map Prod.fst = ax.map Prod.fst ++ [k] := by
  induction ax with
  | nil => simp [axesInsert]
  | cons hd t ih =>
    simp only [List.map_cons, List.mem_cons] at h
    push_neg at h
    obtain ⟨h1, h2⟩ := h
    have hne : hd.1 ≠ k := fun hh => h1 hh.symm
    simp [axesInsert, hne, ih h2]

/-- A key is present in the association list iff it is among the keys. -/
theorem axesGet_isSome_iff (k : String) (ax : List (String × AxVal)) :
    (axesGet k ax).isSome = true ↔ k ∈ ax.map Prod.fst := by
  induction ax with
  | nil => simp [axesGet]
  | cons hd t ih =>
    by_cases hk : hd.1 = k
    · simp [axesGet, hk]
    · have hne : k ≠ hd.1 := fun hh => hk hh.symm
      simp [axesGet, hk, ih, hne]

/-- `cumsum` preserves length. -/
theorem cumsum_length (l : List ℚ) : (cumsum l).length = l.length := by
  induction l with
  | nil => simp [cumsum]
  | cons x t ih => simp [cumsum, ih]

/-- The inclusive running sum at index `i` is the sum of the first
`i + 1` elements. -/
theorem cumsum_getD (l : List ℚ) (i : Nat) (hi : i < l.length) :
    (cumsum l)[i]?.getD 0 = ((l.take (i + 1)).sum) := by
  induction l generalizing i with
  | nil => simp at hi
  | cons x rest ih =>
    cases i with
    | zero => simp [cumsum]
    | succ j =>
      simp only [List.length_cons, Nat.succ_lt_succ_iff] at hi
      have hj : j < (cumsum rest).length := by rw [cumsum_length]; exact hi
      simp only [cumsum, List.take_succ_cons, List.sum_cons, List.getElem?_cons_succ,
        List.getElem?_map]
      rw [List.getElem?_eq_getElem hj]
      have hrec := ih j hi
      rw [List.getElem?_eq_getElem hj] at hrec
      simp only [Option.getD_some] at hrec
      simp [hrec]

/-- `arange` produces `arangeLen` values. -/
theorem arange_length (a b c : ℚ) : (arange a b c).length = arangeLen a b c := by
  rw [arange, List.length_map, List.length_range]

/-- Element of a list mapped over an index range. -/
theorem getD_map_range {β : Type} (L j : Nat) (g : Nat → β) (d : β) (hj : j < L) :
    ((List.range L).map g).getD j d = g j := by
  rw [List.getD_eq_getElem _ _ (by simpa using hj), List.getElem_map, List.getElem_range]

/-- Position of an integer label in a mapped range block. -/
theorem listIndexOf_range'_map (k : Nat) :
    ∀ (m s : Nat), s ≤ k → k < s + m →
      listIndexOf (AxVal.i (k : Int)) ((List.range' s m).map (fun j : Nat => AxVal.i (j : Int)))
        = k - s := by
  intro m
  induction m with
  | zero => intro s h1 h2; omega
  | succ m ih =>
    intro s h1 h2
    rw [List.range'_succ]
    simp only [List.map_cons, listIndexOf]
    by_cases hk : s = k
    · simp [hk]
    · have hne : ¬(AxVal.i (s : Int) = AxVal.i (k : Int)) := by
        simp only [AxVal.i.injEq]
        omega
      rw [if_neg hne, ih (s + 1) (by omega) (by omega)]
      omega

/-- Position of an integer label in the default position-label list. -/
theorem listIndexOf_defaultLabels (k n : Nat) (h : k < n) :
    listIndexOf (AxVal.i (k : Int)) ((List.range n).map (fun j : Nat => AxVal.i (j : Int))) = k := by
  rw [List.range_eq_range']
  simpa using listIndexOf_range'_map k n 0 (by omega) (by omega)

/-- Zipping a mapped index block with a list, as a single mapped range. -/
theorem zip_range'_map_eq {α β : Type} (f : Nat → β) (d : α) (xs : List α) :
    ∀ (s : Nat), ((List.range' s xs.length).map f).zip xs =
      (List.range xs.length).map (fun i => (f (s + i), xs.getD i d)) := by
  induction xs with
  | nil => intro s; simp
  | cons x rest ih =>
    intro s
    rw [List.length_cons, List.range'_succ, List.range_succ_eq_map]
    simp only [List.map_cons, List.zip_cons_cons, List.map_map]
    congr 1
    rw [ih (s + 1)]
    apply List.map_congr_left
    intro i hi
    simp only [Function.comp_apply, List.getD_cons_succ]
    congr 2
    omega

/-- Zipping the default labels with a list, as a single mapped range. -/
theorem zip_defaultLabels_eq {α β : Type} (f : Nat → β) (d : α) (xs : List α) :
    ((List.range xs.length).map f).zip xs =
      (List.range xs.length).map (fun i => (f i, xs.getD i d)) := by
  nth_rewrite 1 [List.range_eq_range']
  simpa using zip_range'_map_eq f d xs 0

/-- `listIndexOf` at the head. -/
theorem listIndexOf_cons_self {α : Type} [DecidableEq α] (x : α) (l : List α) :
    listIndexOf x (x :: l) = 0 := by
  simp [listIndexOf]

/-- `listIndexOf` past a mismatching head. -/
theorem listIndexOf_cons_ne {α : Type} [DecidableEq α] (x y : α) (l : List α) (h : y ≠ x) :
    listIndexOf x (y :: l) = listIndexOf x l + 1 := by
  simp [listIndexOf, h]

/-- A present element's index is within bounds. -/
theorem listIndexOf_lt_length {α : Type} [DecidableEq α] (x : α) (l : List α) (h : x ∈ l) :
    listIndexOf x l < l.length := by
  induction l with
  | nil => cases h
  | cons y t ih =>
    by_cases hy : y = x
    · simp [listIndexOf, hy]
    · rcases List.mem_cons.mp h with rfl | hmem
      · exact absurd rfl hy
      · simp only [listIndexOf, if_neg hy, List.length_cons]
        exact Nat.succ_lt_succ (ih hmem)

/-- `getD` at a valid index is a member. -/
theorem getD_mem {α : Type} (l : List α) (i : Nat) (d : α) (h : i < l.length) :
    l.getD i d ∈ l := by
  rw [List.getD_eq_getElem _ _ h]
  exact List.getElem_mem h

/-- Length of a `flatMap` whose pieces all have the same length. -/
theorem flatMap_length_const {α β : Type} (l : List α) (f : α → List β) (n : Nat)
    (h : ∀ x ∈ l, (f x).length = n) : (l.flatMap f).length = l.length * n := by
  induction l with
  | nil => simp
  | cons x t ih =>
    rw [List.flatMap_cons, List.length_append, h x (List.mem_cons_self x t),
      ih (fun y hy => h y (List.mem_cons_of_mem x hy)), List.length_cons]
    ring

/-- An active letter is one of the four axis letters. -/
theorem letterActive_mem (c : GenCtx) (ch : Char) (h : letterActive c ch = true) :
    ch = 't' ∨ ch = 'z' ∨ ch = 'p' ∨ ch = 'c' := by
  by_cases h1 : ch = 't'
  · exact Or.inl h1
  · by_cases h2 : ch = 'z'
    · exact Or.inr (Or.inl h2)
    · by_cases h3 : ch = 'p'
      · exact Or.inr (Or.inr (Or.inl h3))
      · by_cases h4 : ch = 'c'
        · exact Or.inr (Or.inr (Or.inr h4))
        · simp [letterActive, h1, h2, h3, h4] at h

/-- `letterKey` separates distinct axis letters. -/
theorem letterKey_inj (ch1 ch2 : Char)
    (h1 : ch1 = 't' ∨ ch1 = 'z' ∨ ch1 = 'p' ∨ ch1 = 'c')
    (h2 : ch2 = 't' ∨ ch2 = 'z' ∨ ch2 = 'p' ∨ ch2 = 'c')
    (h : letterKey ch1 = letterKey ch2) : ch1 = ch2 := by
  rcases h1 with rfl | rfl | rfl | rfl <;> rcases h2 with rfl | rfl | rfl | rfl <;>
    first
      | rfl
      | exact absurd h (by decide)

/-- The time branch does not touch the other event fields' axes. -/
theorem timeBranchEvent_axes (ti : TimeInterval) (e : Event) (i : Nat) :
    (timeBranchEvent ti e i).axes = axesInsert "time" (AxVal.i (i : Int)) e.axes := by
  cases ti with
  | list l => rfl
  | scalar s =>
    by_cases hs : s = 0 <;> simp [timeBranchEvent, hs]

/-- The channel branch's axes. -/
theorem cBranchEvent_axes (c : GenCtx) (e : Event) (i : Nat) :
    (cBranchEvent c e i).axes =
      axesInsert "channel" (AxVal.s ((c.channels.getD []).getD i "")) e.axes := by
  rw [cBranchEvent]
  cases c.channel_exposures_ms <;> rfl

/-- Computation of the generator over `order="pz"`: one block of z events
per position, with the z row selected by the position-label lookup. -/
theorem generate_pz (xys : List (ℚ × ℚ)) (rows : List (List ℚ)) (c : GenCtx)
    (hxy : c.xy_positions = some xys)
    (hzp : c.z_positions = some (.per rows))
    (hlab : c.position_labels =
      some ((List.range xys.length).map (fun j : Nat => AxVal.i (j : Int)))) :
    generate_events c emptyEvent ['p', 'z'] =
      (List.range xys.length).flatMap (fun i : Nat =>
        (List.range ((rows.getD i []).length)).map (fun j : Nat =>
          ({ axes := [("position", AxVal.i (i : Int)), ("z", AxVal.i (j : Int))],
             x := some (xys.getD i (0, 0)).1, y := some (xys.getD i (0, 0)).2,
             z := some (ZVal.num ((rows.getD i []).getD j 0)) } : Event))) := by
  have hntp : ¬ tGuard c 'p' := fun h => absurd h.1 (by decide)
  have hnzp : ¬ zGuard c 'p' := fun h => absurd h.1 (by decide)
  have hntz : ¬ tGuard c 'z' := fun h => absurd h.1 (by decide)
  have hgp : pGuard c 'p' := ⟨rfl, by rw [hxy]; rfl⟩
  have hgz : zGuard c 'z' := ⟨rfl, by rw [hzp]; rfl⟩
  have e0 : ∀ e, generate_events c e [] = [e] := fun e => by rw [generate_events]
  have e1 : ∀ e, generate_events c e ['z'] =
      (zEvents c e).flatMap (fun e'' => generate_events c e'' []) := by
    intro e
    rw [generate_events, if_neg hntz, if_pos hgz]
  have emain : generate_events c emptyEvent ['p', 'z'] =
      (pEvents c emptyEvent).flatMap (fun e' => generate_events c e' ['z']) := by
    rw [generate_events, if_neg hntp, if_neg hnzp, if_pos hgp]
  rw [emain]
  have hpE : pEvents c emptyEvent =
      (List.range xys.length).map (fun i : Nat =>
        pBranchEvent emptyEvent (AxVal.i (i : Int), xys.getD i (0, 0))) := by
    rw [pEvents, hlab, hxy]
    simp only [Option.getD_some]
    rw [zip_defaultLabels_eq (fun j : Nat => AxVal.i (j : Int)) (0, 0) xys, List.map_map]
    rfl
  rw [hpE, List.flatMap_map]
  apply List.flatMap_congr
  intro i hi
  have hiN : i < xys.length := List.mem_range.mp hi
  rw [e1]
  have heP : pBranchEvent emptyEvent (AxVal.i (i : Int), xys.getD i (0, 0)) =
      ({ axes := [("position", AxVal.i (i : Int))],
         x := some (xys.getD i (0, 0)).1, y := some (xys.getD i (0, 0)).2 } : Event) := by
    simp [pBranchEvent, emptyEvent, axesInsert]
  rw [heP]
  have hzsel : ∀ (xv yv : Option ℚ),
      zSelect c { axes := [("position", AxVal.i (i : Int))], x := xv, y := yv } =
        (rows.getD i []).map ZVal.num := by
    intro xv yv
    simp [zSelect, axesGet, hzp, hlab, listIndexOf_defaultLabels i xys.length hiN]
  rw [zEvents, hzsel, List.length_map]
  simp only [e0, List.flatMap_singleton']
  apply List.map_congr_left
  intro j hj
  have hjL : j < (rows.getD i []).length := List.mem_range.mp hj
  rw [zBranchEvent, hzsel]
  have hgetD : ((rows.getD i []).map ZVal.num).getD j (ZVal.num 0) =
      ZVal.num ((rows.getD i []).getD j 0) := by
    rw [List.getD_eq_getElem _ _ (by simpa using hjL), List.getElem_map,
      List.getD_eq_getElem _ _ hjL]
  rw [hgetD]
  simp [axesInsert]

/-- Under the generator's invariants, the selected z row always has the
uniform length `zCardCtx c`. -/
theorem zSelect_length (c : GenCtx) (e : Event)
    (Hrows : ∀ rows, c.z_positions = some (.per rows) →
      (∀ r ∈ rows, r.length = zCardCtx c) ∧ rows.length = (c.position_labels.getD []).length)
    (hz : c.z_positions.isSome = true)
    (hpos : ∀ rows, c.z_positions = some (.per rows) →
      ∃ lv, axesGet "position" e.axes = some lv ∧ lv ∈ c.position_labels.getD [])
    (hflat : ∀ zvals, c.z_positions = some (.flat zvals) → axesGet "position" e.axes = none) :
    (zSelect c e).length = zCardCtx c := by
  cases hzp : c.z_positions with
  | none => rw [hzp] at hz; cases hz
  | some zp =>
    cases zp with
    | flat zvals =>
      simp only [zSelect, hflat zvals hzp, hzp]
      simp [zCardCtx, hzp]
    | per rows =>
      obtain ⟨lv, hlv, hmem⟩ := hpos rows hzp
      simp only [zSelect, hlv, hzp]
      have hidx : listIndexOf lv (c.position_labels.getD []) < rows.length := by
        rw [(Hrows rows hzp).2]
        exact listIndexOf_lt_length _ _ hmem
      rw [List.length_map]
      exact (Hrows rows hzp).1 _ (getD_mem _ _ _ hidx)

/-- The central counting/keying lemma for the generator: under the
construction invariants, each suffix of the order string multiplies the
sequence length by the cardinalities of its active letters, and appends
exactly their axis keys (in nesting order) to every event. -/
theorem generate_events_spec (c : GenCtx)
    (Hlab : ∀ xys, c.xy_positions = some xys →
      ∃ ls, c.position_labels = some ls ∧ ls.length = xys.length)
    (Hrows : ∀ rows, c.z_positions = some (.per rows) →
      (∀ r ∈ rows, r.length = zCardCtx c) ∧ rows.length = (c.position_labels.getD []).length)
    (Hflat : ∀ zvals, c.z_positions = some (.flat zvals) → c.xy_positions = none) :
    ∀ (os : List Char) (e : Event),
      (os.filterMap (fun ch => if letterActive c ch then some ch else none)).Nodup →
      (∀ ch ∈ os, letterActive c ch = true → letterKey ch ∉ e.axes.map Prod.fst) →
      (∀ rows, c.z_positions = some (.per rows) → 'z' ∈ os →
        ((∃ lv, axesGet "position" e.axes = some lv ∧ lv ∈ c.position_labels.getD [])
         ∨ ('p' ∈ os ∧ listIndexOf 'p' os < listIndexOf 'z' os ∧ c.xy_positions.isSome = true))) →
      (∀ zvals, c.z_positions = some (.flat zvals) → axesGet "position" e.axes = none) →
      (generate_events c e os).length =
          (os.filterMap (fun ch => if letterActive c ch then some (letterCard c ch) else none)).prod
      ∧ ∀ e2 ∈ generate_events c e os,
          e2.axes.map Prod.fst = e.axes.map Prod.fst ++
            os.filterMap (fun ch => if letterActive c ch then some (letterKey ch) else none) := by
  intro os
  induction os with
  | nil =>
    intro e h1 h2 h3 h4
    refine ⟨by simp [generate_events], ?_⟩
    intro e2 he2
    rw [show generate_events c e [] = [e] from by rw [generate_events]] at he2
    rcases List.mem_singleton.mp he2 with rfl
    simp
  | cons o rest ih =>
    intro e h1 h2 h3 h4
    -- one generic step for all four active branches
    have step : ∀ (evs : List Event) (key : String),
        (∀ e' ∈ evs, e'.axes.map Prod.fst = e.axes.map Prod.fst ++ [key]) →
        (∀ e' ∈ evs,
          (rest.filterMap (fun ch => if letterActive c ch then some ch else none)).Nodup ∧
          (∀ ch ∈ rest, letterActive c ch = true → letterKey ch ∉ e'.axes.map Prod.fst) ∧
          (∀ rows, c.z_positions = some (.per rows) → 'z' ∈ rest →
            ((∃ lv, axesGet "position" e'.axes = some lv ∧ lv ∈ c.position_labels.getD [])
             ∨ ('p' ∈ rest ∧ listIndexOf 'p' rest < listIndexOf 'z' rest ∧
                c.xy_positions.isSome = true))) ∧
          (∀ zvals, c.z_positions = some (.flat zvals) → axesGet "position" e'.axes = none)) →
        (evs.flatMap (fun e' => generate_events c e' rest)).length
            = evs.length *
              (rest.filterMap (fun ch => if letterActive c ch then
                some (letterCard c ch) else none)).prod
          ∧ ∀ e2 ∈ evs.flatMap (fun e' => generate_events c e' rest),
              e2.axes.map Prod.fst = (e.axes.map Prod.fst ++ [key]) ++
                rest.filterMap (fun ch => if letterActive c ch then
                  some (letterKey ch) else none) := by
      intro evs key hkeys hinvs
      constructor
      · apply flatMap_length_const
        intro e' he'
        obtain ⟨i1, i2, i3, i4⟩ := hinvs e' he'
        exact (ih e' i1 i2 i3 i4).1
      · intro e2 he2
        rw [List.mem_flatMap] at he2
        obtain ⟨e', he', hmem⟩ := he2
        obtain ⟨i1, i2, i3, i4⟩ := hinvs e' he'
        rw [(ih e' i1 i2 i3 i4).2 e2 hmem, hkeys e' he', List.append_assoc]
    by_cases hgt : tGuard c o
    · -- time branch
      obtain ⟨rfl, hact⟩ := hgt
      have hactive : letterActive c 't' = true := by simp [letterActive, hact]
      have hfmc : ('t' :: rest).filterMap
            (fun ch => if letterActive c ch then some ch else none)
          = 't' :: rest.filterMap (fun ch => if letterActive c ch then some ch else none) := by
        rw [List.filterMap_cons]
        simp [hactive]
      rw [hfmc] at h1
      have hnood := (List.nodup_cons.mp h1).1
      have hnodr := (List.nodup_cons.mp h1).2
      have hfresh : "time" ∉ e.axes.map Prod.fst := by
        have := h2 't' (List.mem_cons_self _ _) hactive
        simpa [letterKey] using this
      have hkeys : ∀ e' ∈ tEvents c e,
          e'.axes.map Prod.fst = e.axes.map Prod.fst ++ ["time"] := by
        intro e' he'
        obtain ⟨i, -, rfl⟩ := List.mem_map.mp he'
        rw [timeBranchEvent_axes]
        exact axesKeys_insert_fresh _ _ _ hfresh
      have hinvs : ∀ e' ∈ tEvents c e,
          (rest.filterMap (fun ch => if letterActive c ch then some ch else none)).Nodup ∧
          (∀ ch ∈ rest, letterActive c ch = true → letterKey ch ∉ e'.axes.map Prod.fst) ∧
          (∀ rows, c.z_positions = some (.per rows) → 'z' ∈ rest →
            ((∃ lv, axesGet "position" e'.axes = some lv ∧ lv ∈ c.position_labels.getD [])
             ∨ ('p' ∈ rest ∧ listIndexOf 'p' rest < listIndexOf 'z' rest ∧
                c.xy_positions.isSome = true))) ∧
          (∀ zvals, c.z_positions = some (.flat zvals) → axesGet "position" e'.axes = none) := by
        intro e' he'
        refine ⟨hnodr, ?_, ?_, ?_⟩
        · intro ch hch hcha
          rw [hkeys e' he']
          simp only [List.mem_append, List.mem_singleton]
          rintro (hin | hkey)
          · exact h2 ch (List.mem_cons_of_mem _ hch) hcha hin
          · have hcheq : ch = 't' := letterKey_inj ch 't' (letterActive_mem c ch hcha)
              (Or.inl rfl) (by simpa [letterKey] using hkey)
            refine hnood ?_
            rw [← hcheq]
            exact List.mem_filterMap.mpr ⟨ch, hch, by simp [hcha]⟩
        · intro rows hper hzr
          obtain ⟨i, -, rfl⟩ := List.mem_map.mp he'
          have hget : axesGet "position" (timeBranchEvent c.time_interval_s e i).axes
              = axesGet "position" e.axes := by
            rw [timeBranchEvent_axes]
            exact axesGet_insert_ne _ _ _ _ (by decide)
          rcases h3 rows hper (List.mem_cons_of_mem _ hzr) with ⟨lv, hlv, hmm⟩ | ⟨hp, hidx, hxys⟩
          · exact Or.inl ⟨lv, by rw [hget]; exact hlv, hmm⟩
          · have hpr : 'p' ∈ rest := by
              rcases List.mem_cons.mp hp with h' | h'
              · exact absurd h'.symm (by decide)
              · exact h'
            refine Or.inr ⟨hpr, ?_, hxys⟩
            rw [listIndexOf_cons_ne _ _ _ (by decide),
              listIndexOf_cons_ne _ _ _ (by decide)] at hidx
            omega
        · intro zvals hfl
          obtain ⟨i, -, rfl⟩ := List.mem_map.mp he'
          rw [timeBranchEvent_axes, axesGet_insert_ne _ _ _ _ (by decide)]
          exact h4 zvals hfl
      have hlen : (tEvents c e).length = timePointsNat c := by
        simp [tEvents]
      have hconc := step (tEvents c e) "time" hkeys hinvs
      rw [show generate_events c e ('t' :: rest)
          = (tEvents c e).flatMap (fun e' => generate_events c e' rest) from by
        rw [generate_events, if_pos ⟨rfl, hact⟩]]
      constructor
      · rw [hconc.1, hlen, List.filterMap_cons]
        simp [hactive, letterCard]
      · intro e2 he2
        rw [hconc.2 e2 he2, List.filterMap_cons]
        simp [hactive, letterKey]
    · by_cases hgz : zGuard c o
      · -- z branch
        obtain ⟨rfl, hact⟩ := hgz
        have hactive : letterActive c 'z' = true := by simp [letterActive, hact]
        have hfmc : ('z' :: rest).filterMap
              (fun ch => if letterActive c ch then some ch else none)
            = 'z' :: rest.filterMap (fun ch => if letterActive c ch then some ch else none) := by
          rw [List.filterMap_cons]
          simp [hactive]
        rw [hfmc] at h1
        have hnood := (List.nodup_cons.mp h1).1
        have hnodr := (List.nodup_cons.mp h1).2
        have hfresh : "z" ∉ e.axes.map Prod.fst := by
          have := h2 'z' (List.mem_cons_self _ _) hactive
          simpa [letterKey] using this
        have hposz : ∀ rows, c.z_positions = some (.per rows) →
            ∃ lv, axesGet "position" e.axes = some lv ∧ lv ∈ c.position_labels.getD [] := by
          intro rows hper
          rcases h3 rows hper (List.mem_cons_self _ _) with hl | ⟨hp, hidx, -⟩
          · exact hl
          · rw [listIndexOf_cons_self] at hidx
            omega
        have hsel : (zSelect c e).length = zCardCtx c :=
          zSelect_length c e Hrows hact hposz h4
        have hkeys : ∀ e' ∈ zEvents c e,
            e'.axes.map Prod.fst = e.axes.map Prod.fst ++ ["z"] := by
          intro e' he'
          obtain ⟨i, -, rfl⟩ := List.mem_map.mp he'
          exact axesKeys_insert_fresh _ _ _ hfresh
        have hinvs : ∀ e' ∈ zEvents c e,
            (rest.filterMap (fun ch => if letterActive c ch then some ch else none)).Nodup ∧
            (∀ ch ∈ rest, letterActive c ch = true → letterKey ch ∉ e'.axes.map Prod.fst) ∧
            (∀ rows, c.z_positions = some (.per rows) → 'z' ∈ rest →
              ((∃ lv, axesGet "position" e'.axes = some lv ∧ lv ∈ c.position_labels.getD [])
               ∨ ('p' ∈ rest ∧ listIndexOf 'p' rest < listIndexOf 'z' rest ∧
                  c.xy_positions.isSome = true))) ∧
            (∀ zvals, c.z_positions = some (.flat zvals) →
              axesGet "position" e'.axes = none) := by
          intro e' he'
          refine ⟨hnodr, ?_, ?_, ?_⟩
          · intro ch hch hcha
            rw [hkeys e' he']
            simp only [List.mem_append, List.mem_singleton]
            rintro (hin | hkey)
            · exact h2 ch (List.mem_cons_of_mem _ hch) hcha hin
            · have hcheq : ch = 'z' := letterKey_inj ch 'z' (letterActive_mem c ch hcha)
                (Or.inr (Or.inl rfl)) (by simpa [letterKey] using hkey)
              refine hnood ?_
              rw [← hcheq]
              exact List.mem_filterMap.mpr ⟨ch, hch, by simp [hcha]⟩
          · intro rows hper hzr
            exact absurd (List.mem_filterMap.mpr ⟨'z', hzr, by simp [hactive]⟩) hnood
          · intro zvals hfl
            obtain ⟨i, -, rfl⟩ := List.mem_map.mp he'
            rw [show (zBranchEvent c e i).axes
                = axesInsert "z" (AxVal.i (i : Int)) e.axes from rfl]
            rw [axesGet_insert_ne _ _ _ _ (by decide)]
            exact h4 zvals hfl
        have hlen : (zEvents c e).length = zCardCtx c := by
          rw [zEvents, List.length_map, List.length_range]
          exact hsel
        have hconc := step (zEvents c e) "z" hkeys hinvs
        rw [show generate_events c e ('z' :: rest)
            = (zEvents c e).flatMap (fun e' => generate_events c e' rest) from by
          rw [generate_events, if_neg hgt, if_pos ⟨rfl, hact⟩]]
        constructor
        · rw [hconc.1, hlen, List.filterMap_cons]
          simp [hactive, letterCard]
        · intro e2 he2
          rw [hconc.2 e2 he2, List.filterMap_cons]
          simp [hactive, letterKey]
      · by_cases hgp : pGuard c o
        · -- position branch
          obtain ⟨rfl, hact⟩ := hgp
          have hactive : letterActive c 'p' = true := by simp [letterActive, hact]
          obtain ⟨xys, hxys⟩ := Option.isSome_iff_exists.mp hact
          obtain ⟨ls, hls, hlslen⟩ := Hlab xys hxys
          have hfmc : ('p' :: rest).filterMap
                (fun ch => if letterActive c ch then some ch else none)
              = 'p' :: rest.filterMap
                  (fun ch => if letterActive c ch then some ch else none) := by
            rw [List.filterMap_cons]
            simp [hactive]
          rw [hfmc] at h1
          have hnood := (List.nodup_cons.mp h1).1
          have hnodr := (List.nodup_cons.mp h1).2
          have hfresh : "position" ∉ e.axes.map Prod.fst := by
            have := h2 'p' (List.mem_cons_self _ _) hactive
            simpa [letterKey] using this
          have hkeys : ∀ e' ∈ pEvents c e,
              e'.axes.map Prod.fst = e.axes.map Prod.fst ++ ["position"] := by
            intro e' he'
            obtain ⟨lxy, -, rfl⟩ := List.mem_map.mp he'
            exact axesKeys_insert_fresh _ _ _ hfresh
          have hinvs : ∀ e' ∈ pEvents c e,
              (rest.filterMap (fun ch => if letterActive c ch then some ch else none)).Nodup ∧
              (∀ ch ∈ rest, letterActive c ch = true → letterKey ch ∉ e'.axes.map Prod.fst) ∧
              (∀ rows, c.z_positions = some (.per rows) → 'z' ∈ rest →
                ((∃ lv, axesGet "position" e'.axes = some lv ∧ lv ∈ c.position_labels.getD [])
                 ∨ ('p' ∈ rest ∧ listIndexOf 'p' rest < listIndexOf 'z' rest ∧
                    c.xy_positions.isSome = true))) ∧
              (∀ zvals, c.z_positions = some (.flat zvals) →
                axesGet "position" e'.axes = none) := by
            intro e' he'
            obtain ⟨lxy, hlxy, rfl⟩ := List.mem_map.mp he'
            refine ⟨hnodr, ?_, ?_, ?_⟩
            · intro ch hch hcha
              rw [hkeys _ (List.mem_map.mpr ⟨lxy, hlxy, rfl⟩)]
              simp only [List.mem_append, List.mem_singleton]
              rintro (hin | hkey)
              · exact h2 ch (List.mem_cons_of_mem _ hch) hcha hin
              · have hcheq : ch = 'p' := letterKey_inj ch 'p' (letterActive_mem c ch hcha)
                  (Or.inr (Or.inr (Or.inl rfl))) (by simpa [letterKey] using hkey)
                refine hnood ?_
                rw [← hcheq]
                exact List.mem_filterMap.mpr ⟨ch, hch, by simp [hcha]⟩
            · intro rows hper hzr
              refine Or.inl ⟨lxy.1, ?_, ?_⟩
              · rw [show (pBranchEvent e lxy).axes
                    = axesInsert "position" lxy.1 e.axes from rfl]
                exact axesGet_insert_self _ _ _
              · rw [hls] at hlxy ⊢
                simp only [Option.getD_some] at hlxy ⊢
                exact (List.of_mem_zip hlxy).1
            · intro zvals hfl
              exact absurd hxys (by rw [Hflat zvals hfl]; exact fun h => by cases h)
          have hlen : (pEvents c e).length = (c.xy_positions.getD []).length := by
            rw [pEvents, List.length_map, List.length_zip, hls, hxys]
            simp [hlslen]
          have hconc := step (pEvents c e) "position" hkeys hinvs
          rw [show generate_events c e ('p' :: rest)
              = (pEvents c e).flatMap (fun e' => generate_events c e' rest) from by
            rw [generate_events, if_neg hgt, if_neg hgz, if_pos ⟨rfl, hact⟩]]
          constructor
          · rw [hconc.1, hlen, List.filterMap_cons]
            simp [hactive, letterCard]
          · intro e2 he2
            rw [hconc.2 e2 he2, List.filterMap_cons]
            simp [hactive, letterKey]
        · by_cases hgc : cGuard c o
          · -- channel branch
            obtain ⟨rfl, hact⟩ := hgc
            have hactive : letterActive c 'c' = true := by
              simp [letterActive, hact.1, hact.2]
            have hfmc : ('c' :: rest).filterMap
                  (fun ch => if letterActive c ch then some ch else none)
                = 'c' :: rest.filterMap
                    (fun ch => if letterActive c ch then some ch else none) := by
              rw [List.filterMap_cons]
              simp [hactive]
            rw [hfmc] at h1
            have hnood := (List.nodup_cons.mp h1).1
            have hnodr := (List.nodup_cons.mp h1).2
            have hfresh : "channel" ∉ e.axes.map Prod.fst := by
              have := h2 'c' (List.mem_cons_self _ _) hactive
              simpa [letterKey] using this
            have hkeys : ∀ e' ∈ cEvents c e,
                e'.axes.map Prod.fst = e.axes.map Prod.fst ++ ["channel"] := by
              intro e' he'
              obtain ⟨i, -, rfl⟩ := List.mem_map.mp he'
              rw [cBranchEvent_axes]
              exact axesKeys_insert_fresh _ _ _ hfresh
            have hinvs : ∀ e' ∈ cEvents c e,
                (rest.filterMap (fun ch => if letterActive c ch then some ch else none)).Nodup ∧
                (∀ ch ∈ rest, letterActive c ch = true →
                  letterKey ch ∉ e'.axes.map Prod.fst) ∧
                (∀ rows, c.z_positions = some (.per rows) → 'z' ∈ rest →
                  ((∃ lv, axesGet "position" e'.axes = some lv ∧
                      lv ∈ c.position_labels.getD [])
                   ∨ ('p' ∈ rest ∧ listIndexOf 'p' rest < listIndexOf 'z' rest ∧
                      c.xy_positions.isSome = true))) ∧
                (∀ zvals, c.z_positions = some (.flat zvals) →
                  axesGet "position" e'.axes = none) := by
              intro e' he'
              refine ⟨hnodr, ?_, ?_, ?_⟩
              · intro ch hch hcha
                rw [hkeys e' he']
                simp only [List.mem_append, List.mem_singleton]
                rintro (hin | hkey)
                · exact h2 ch (List.mem_cons_of_mem _ hch) hcha hin
                · have hcheq : ch = 'c' := letterKey_inj ch 'c' (letterActive_mem c ch hcha)
                    (Or.inr (Or.inr (Or.inr rfl))) (by simpa [letterKey] using hkey)
                  refine hnood ?_
                  rw [← hcheq]
                  exact List.mem_filterMap.mpr ⟨ch, hch, by simp [hcha]⟩
              · intro rows hper hzr
                obtain ⟨i, -, rfl⟩ := List.mem_map.mp he'
                have hget : axesGet "position" (cBranchEvent c e i).axes
                    = axesGet "position" e.axes := by
                  rw [cBranchEvent_axes]
                  exact axesGet_insert_ne _ _ _ _ (by decide)
                rcases h3 rows hper (List.mem_cons_of_mem _ hzr) with
                  ⟨lv, hlv, hmm⟩ | ⟨hp, hidx, hxys2⟩
                · exact Or.inl ⟨lv, by rw [hget]; exact hlv, hmm⟩
                · have hpr : 'p' ∈ rest := by
                    rcases List.mem_cons.mp hp with h' | h'
                    · exact absurd h'.symm (by decide)
                    · exact h'
                  refine Or.inr ⟨hpr, ?_, hxys2⟩
                  rw [listIndexOf_cons_ne _ _ _ (by decide),
                    listIndexOf_cons_ne _ _ _ (by decide)] at hidx
                  omega
              · intro zvals hfl
                obtain ⟨i, -, rfl⟩ := List.mem_map.mp he'
                rw [cBranchEvent_axes, axesGet_insert_ne _ _ _ _ (by decide)]
                exact h4 zvals hfl
            have hlen : (cEvents c e).length = (c.channels.getD []).length := by
              simp [cEvents]
            have hconc := step (cEvents c e) "channel" hkeys hinvs
            rw [show generate_events c e ('c' :: rest)
                = (cEvents c e).flatMap (fun e' => generate_events c e' rest) from by
              rw [generate_events, if_neg hgt, if_neg hgz, if_neg hgp,
                if_pos ⟨rfl, hact⟩]]
            constructor
            · rw [hconc.1, hlen, List.filterMap_cons]
              simp [hactive, letterCard]
            · intro e2 he2
              rw [hconc.2 e2 he2, List.filterMap_cons]
              simp [hactive, letterKey]
          · -- skipped letter
            have hninact : letterActive c o = false := by
              by_cases h1' : o = 't'
              · subst h1'
                rcases hb : tActiveCtx c with _ | _
                · simp [letterActive, hb]
                · exact absurd ⟨rfl, hb⟩ hgt
              · by_cases h2' : o = 'z'
                · subst h2'
                  rcases hb : c.z_positions.isSome with _ | _
                  · simp [letterActive, hb]
                  · exact absurd ⟨rfl, hb⟩ hgz
                · by_cases h3' : o = 'p'
                  · subst h3'
                    rcases hb : c.xy_positions.isSome with _ | _
                    · simp [letterActive, hb]
                    · exact absurd ⟨rfl, hb⟩ hgp
                  · by_cases h4' : o = 'c'
                    · subst h4'
                      rcases hb1 : c.channel_group.isSome with _ | _
                      · simp [letterActive, hb1]
                      · rcases hb2 : c.channels.isSome with _ | _
                        · simp [letterActive, hb1, hb2]
                        · exact absurd ⟨rfl, hb1, hb2⟩ hgc
                    · simp [letterActive, h1', h2', h3', h4']
            have hfmc : (o :: rest).filterMap
                  (fun ch => if letterActive c ch then some ch else none)
                = rest.filterMap (fun ch => if letterActive c ch then some ch else none) := by
              rw [List.filterMap_cons]
              simp [hninact]
            rw [hfmc] at h1
            have h3' : ∀ rows, c.z_positions = some (.per rows) → 'z' ∈ rest →
                ((∃ lv, axesGet "position" e.axes = some lv ∧ lv ∈ c.position_labels.getD [])
                 ∨ ('p' ∈ rest ∧ listIndexOf 'p' rest < listIndexOf 'z' rest ∧
                    c.xy_positions.isSome = true)) := by
              intro rows hper hzr
              have hoz : o ≠ 'z' := by
                intro h'
                subst h'
                exact hgz ⟨rfl, by rw [hper]; rfl⟩
              rcases h3 rows hper (List.mem_cons_of_mem _ hzr) with hl | ⟨hp, hidx, hxys2⟩
              · exact Or.inl hl
              · have hop : o ≠ 'p' := by
                  intro h'
                  subst h'
                  exact hgp ⟨rfl, hxys2⟩
                have hpr : 'p' ∈ rest := by
                  rcases List.mem_cons.mp hp with h' | h'
                  · exact absurd h'.symm hop
                  · exact h'
                refine Or.inr ⟨hpr, ?_, hxys2⟩
                rw [listIndexOf_cons_ne _ _ _ hop, listIndexOf_cons_ne _ _ _ hoz] at hidx
                omega
            have hcon := ih e h1
              (fun ch hch hcha => h2 ch (List.mem_cons_of_mem _ hch) hcha) h3' h4
            rw [show generate_events c e (o :: rest) = generate_events c e rest from by
              rw [generate_events, if_neg hgt, if_neg hgz, if_neg hgp, if_neg hgc]]
            rw [List.filterMap_cons, List.filterMap_cons]
            simp only [hninact]
            simpa using hcon

/-- Erasing identities from one instrumented level recovers the plain
flatMap over the level's events. -/
theorem runLevel_map_fst (g : Event × Nat → Nat → List (Event × Nat) × Nat)
    (f : Event → List Event)
    (hg : ∀ e id k, ((g (e, id) k).1).map Prod.fst = f e) :
    ∀ (evs : List Event) (k : Nat),
      ((runLevel g evs k).1).map Prod.fst = evs.flatMap f := by
  intro evs
  induction evs with
  | nil => intro k; simp [runLevel]
  | cons e es ih =>
    intro k
    rw [runLevel]
    simp only [List.map_append, List.flatMap_cons]
    rw [hg, ih]

/-- Erasing identities from the instrumented generator recovers the plain
generator: the allocation counter never influences the event values. -/
theorem generate_events_ids_map_fst (c : GenCtx) :
    ∀ (os : List Char) (e : Event) (id k : Nat),
      ((generate_events_ids c (e, id) os k).1).map Prod.fst = generate_events c e os := by
  intro os
  induction os with
  | nil =>
    intro e id k
    simp [generate_events_ids, generate_events]
  | cons o rest ih =>
    intro e id k
    by_cases hgt : tGuard c o
    · rw [show generate_events_ids c (e, id) (o :: rest) k
          = runLevel (fun q k' => generate_events_ids c q rest k') (tEvents c e) k from by
        rw [generate_events_ids, if_pos hgt]]
      rw [show generate_events c e (o :: rest)
          = (tEvents c e).flatMap (fun e' => generate_events c e' rest) from by
        rw [generate_events, if_pos hgt]]
      exact runLevel_map_fst _ _ (fun e' id' k' => ih e' id' k') (tEvents c e) k
    · by_cases hgz : zGuard c o
      · rw [show generate_events_ids c (e, id) (o :: rest) k
            = runLevel (fun q k' => generate_events_ids c q rest k') (zEvents c e) k from by
          rw [generate_events_ids, if_neg hgt, if_pos hgz]]
        rw [show generate_events c e (o :: rest)
            = (zEvents c e).flatMap (fun e' => generate_events c e' rest) from by
          rw [generate_events, if_neg hgt, if_pos hgz]]
        exact runLevel_map_fst _ _ (fun e' id' k' => ih e' id' k') (zEvents c e) k
      · by_cases hgp : pGuard c o
        · rw [show generate_events_ids c (e, id) (o :: rest) k
              = runLevel (fun q k' => generate_events_ids c q rest k') (pEvents c e) k from by
            rw [generate_events_ids, if_neg hgt, if_neg hgz, if_pos hgp]]
          rw [show generate_events c e (o :: rest)
              = (pEvents c e).flatMap (fun e' => generate_events c e' rest) from by
            rw [generate_events, if_neg hgt, if_neg hgz, if_pos hgp]]
          exact runLevel_map_fst _ _ (fun e' id' k' => ih e' id' k') (pEvents c e) k
        · by_cases hgc : cGuard c o
          · rw [show generate_events_ids c (e, id) (o :: rest) k
                = runLevel (fun q k' => generate_events_ids c q rest k') (cEvents c e) k from by
              rw [generate_events_ids, if_neg hgt, if_neg hgz, if_neg hgp, if_pos hgc]]
            rw [show generate_events c e (o :: rest)
                = (cEvents c e).flatMap (fun e' => generate_events c e' rest) from by
              rw [generate_events, if_neg hgt, if_neg hgz, if_neg hgp, if_pos hgc]]
            exact runLevel_map_fst _ _ (fun e' id' k' => ih e' id' k') (cEvents c e) k
          · rw [show generate_events_ids c (e, id) (o :: rest) k
                = generate_events_ids c (e, id) rest k from by
              rw [generate_events_ids, if_neg hgt, if_neg hgz, if_neg hgp, if_neg hgc]]
            rw [show generate_events c e (o :: rest) = generate_events c e rest from by
              rw [generate_events, if_neg hgt, if_neg hgz, if_neg hgp, if_neg hgc]]
            exact ih e id k

/-- One instrumented level allocates only fresh identities, strictly
increasing the counter, with no duplicates. -/
theorem runLevel_ids (g : Event × Nat → Nat → List (Event × Nat) × Nat)
    (hg : ∀ e id k, id < k →
      k ≤ (g (e, id) k).2 ∧
      (∀ j ∈ ((g (e, id) k).1).map Prod.snd, j = id ∨ (k ≤ j ∧ j < (g (e, id) k).2)) ∧
      (((g (e, id) k).1).map Prod.snd).Nodup) :
    ∀ (evs : List Event) (k : Nat),
      k ≤ (runLevel g evs k).2 ∧
      (∀ j ∈ ((runLevel g evs k).1).map Prod.snd,
        k ≤ j ∧ j < (runLevel g evs k).2) ∧
      (((runLevel g evs k).1).map Prod.snd).Nodup := by
  intro evs
  induction evs with
  | nil => intro k; simp [runLevel]
  | cons e es ih =>
    intro k
    obtain ⟨hg1, hg2, hg3⟩ := hg e k (k + 1) (Nat.lt_succ_self k)
    obtain ⟨ih1, ih2, ih3⟩ := ih (g (e, k) (k + 1)).2
    rw [runLevel]
    simp only [List.map_append]
    refine ⟨by omega, ?_, ?_⟩
    · intro j hj
      rcases List.mem_append.mp hj with hj1 | hj2
      · rcases hg2 j hj1 with rfl | ⟨hlo, hhi⟩
        · exact ⟨Nat.le_refl _, by omega⟩
        · exact ⟨by omega, by omega⟩
      · obtain ⟨hlo, hhi⟩ := ih2 j hj2
        exact ⟨by omega, hhi⟩
    · refine List.Nodup.append hg3 ih3 (List.disjoint_left.mpr ?_)
      intro j hj1 hj2
      obtain ⟨hlo, -⟩ := ih2 j hj2
      rcases hg2 j hj1 with rfl | ⟨-, hhi⟩
      · omega
      · omega

/-- Every run of the instrumented generator emits pairwise-distinct event
identities: no two emitted events share an underlying dict. -/
theorem generate_events_ids_spec (c : GenCtx) :
    ∀ (os : List Char) (e : Event) (id k : Nat), id < k →
      k ≤ (generate_events_ids c (e, id) os k).2 ∧
      (∀ j ∈ ((generate_events_ids c (e, id) os k).1).map Prod.snd,
        j = id ∨ (k ≤ j ∧ j < (generate_events_ids c (e, id) os k).2)) ∧
      (((generate_events_ids c (e, id) os k).1).map Prod.snd).Nodup := by
  intro os
  induction os with
  | nil =>
    intro e id k hk
    simp [generate_events_ids]
  | cons o rest ih =>
    intro e id k hk
    have hrun := runLevel_ids (fun q k' => generate_events_ids c q rest k')
      (fun e' id' k' h => ih e' id' k' h)
    by_cases hgt : tGuard c o
    · rw [show generate_events_ids c (e, id) (o :: rest) k
          = runLevel (fun q k' => generate_events_ids c q rest k') (tEvents c e) k from by
        rw [generate_events_ids, if_pos hgt]]
      obtain ⟨r1, r2, r3⟩ := hrun (tEvents c e) k
      exact ⟨r1, fun j hj => Or.inr (r2 j hj), r3⟩
    · by_cases hgz : zGuard c o
      · rw [show generate_events_ids c (e, id) (o :: rest) k
            = runLevel (fun q k' => generate_events_ids c q rest k') (zEvents c e) k from by
          rw [generate_events_ids, if_neg hgt, if_pos hgz]]
        obtain ⟨r1, r2, r3⟩ := hrun (zEvents c e) k
        exact ⟨r1, fun j hj => Or.inr (r2 j hj), r3⟩
      · by_cases hgp : pGuard c o
        · rw [show generate_events_ids c (e, id) (o :: rest) k
              = runLevel (fun q k' => generate_events_ids c q rest k') (pEvents c e) k from by
            rw [generate_events_ids, if_neg hgt, if_neg hgz, if_pos hgp]]
          obtain ⟨r1, r2, r3⟩ := hrun (pEvents c e) k
          exact ⟨r1, fun j hj => Or.inr (r2 j hj), r3⟩
        · by_cases hgc : cGuard c o
          · rw [show generate_events_ids c (e, id) (o :: rest) k
                = runLevel (fun q k' => generate_events_ids c q rest k') (cEvents c e) k from by
              rw [generate_events_ids, if_neg hgt, if_neg hgz, if_neg hgp, if_pos hgc]]
            obtain ⟨r1, r2, r3⟩ := hrun (cEvents c e) k
            exact ⟨r1, fun j hj => Or.inr (r2 j hj), r3⟩
          · rw [show generate_events_ids c (e, id) (o :: rest) k
                = generate_events_ids c (e, id) rest k from by
              rw [generate_events_ids, if_neg hgt, if_neg hgz, if_neg hgp, if_neg hgc]]
            exact ih e id k hk

/-- A passing validation chain makes every single check pass. -/
theorem mdCheck_none_facts (a : MDAArgs) (h : mdCheck a = none) :
    (a.xy_positions.isSome && a.xyz_positions.isSome) = false ∧
    ¬('p' ∈ lowerOrder a ∧ 'z' ∈ lowerOrder a ∧
        listIndexOf 'z' (lowerOrder a) < listIndexOf 'p' (lowerOrder a)) ∧
    tiLenBad a = false ∧ xyLabelsBad a = false ∧ xyzLabelsBad a = false ∧
    (hasZtruthy a && !allZSome a) = false ∧
    (hasZsteps a && (a.z_step == some 0)) = false := by
  rw [mdCheck] at h
  by_cases c1 : (a.xy_positions.isSome && a.xyz_positions.isSome) = true
  · rw [if_pos c1] at h; cases h
  · rw [if_neg c1] at h
    by_cases c2 : ('p' ∈ lowerOrder a ∧ 'z' ∈ lowerOrder a ∧
        listIndexOf 'z' (lowerOrder a) < listIndexOf 'p' (lowerOrder a))
    · rw [if_pos c2] at h; cases h
    · rw [if_neg c2] at h
      by_cases c3 : tiLenBad a = true
      · rw [if_pos c3] at h; cases h
      · rw [if_neg c3] at h
        by_cases c4 : xyLabelsBad a = true
        · rw [if_pos c4] at h; cases h
        · rw [if_neg c4] at h
          by_cases c5 : xyzLabelsBad a = true
          · rw [if_pos c5] at h; cases h
          · rw [if_neg c5] at h
            by_cases c6 : (hasZtruthy a && !allZSome a) = true
            · rw [if_pos c6] at h; cases h
            · rw [if_neg c6] at h
              by_cases c7 : (hasZsteps a && (a.z_step == some 0)) = true
              · rw [if_pos c7] at h; cases h
              · exact ⟨Bool.not_eq_true _ ▸ c1, c2, Bool.not_eq_true _ ▸ c3,
                  Bool.not_eq_true _ ▸ c4, Bool.not_eq_true _ ▸ c5,
                  Bool.not_eq_true _ ▸ c6, Bool.not_eq_true _ ▸ c7⟩

/-- Counting inside the active-letter projection of an order string. -/
theorem count_filterMap_active (c : GenCtx) (x : Char) (os : List Char) :
    (os.filterMap (fun ch => if letterActive c ch then some ch else none)).count x
      = if letterActive c x then os.count x else 0 := by
  induction os with
  | nil => simp
  | cons o rest ih =>
    rw [List.filterMap_cons]
    by_cases hx : o = x
    · subst hx
      by_cases ho : letterActive c o = true
      · simp [ho, List.count_cons, ih]
      · simp [ho, List.count_cons, ih]
    · by_cases ho : letterActive c o = true
      · simp [ho, List.count_cons, ih, hx]
      · simp [ho, List.count_cons, ih, hx]

/-- The active projection with a payload function factors through the
plain active-letter projection. -/
theorem filterMap_active_map {β : Type} (c : GenCtx) (g : Char → β) (os : List Char) :
    os.filterMap (fun ch => if letterActive c ch then some (g ch) else none)
      = (os.filterMap (fun ch => if letterActive c ch then some ch else none)).map g := by
  induction os with
  | nil => simp
  | cons o rest ih =>
    rw [List.filterMap_cons, List.filterMap_cons]
    by_cases ho : letterActive c o = true
    · simp [ho, ih]
    · simp [ho, ih]

/-- The indexed element of `listIndexOf` is the element itself. -/
theorem listIndexOf_getD {α : Type} [DecidableEq α] (x : α) (l : List α) (d : α)
    (h : x ∈ l) : l.getD (listIndexOf x l) d = x := by
  induction l with
  | nil => cases h
  | cons y t ih =>
    by_cases hy : y = x
    · simp [listIndexOf, hy]
    · rcases List.mem_cons.mp h with rfl | hmem
      · exact absurd rfl hy
      · rw [listIndexOf_cons_ne _ _ _ hy, List.getD_cons_succ]
        exact ih hmem

/-- Distinct present elements have distinct indices. -/
theorem listIndexOf_injOn {α : Type} [DecidableEq α] (x y : α) (l : List α)
    (hx : x ∈ l) (hy : y ∈ l) (hne : x ≠ y) :
    listIndexOf x l ≠ listIndexOf y l := by
  intro heq
  apply hne
  have h1 := listIndexOf_getD x l x hx
  have h2 := listIndexOf_getD y l x hy
  rw [heq] at h1
  rw [← h1, h2]

/-- Rows produced by mapping a fixed-length generator are uniform with the
head's length. -/
theorem rows_uniform {α : Type} (u : List α) (g : α → List ℚ) (L : Nat)
    (hg : ∀ x, (g x).length = L) :
    ∀ r ∈ u.map g, r.length = ((u.map g).headD []).length := by
  intro r hr
  cases u with
  | nil => simp at hr
  | cons x t =>
    obtain ⟨y, -, rfl⟩ := List.mem_map.mp hr
    simp [hg]

/-- The label list paired with the derived xy list always exists and has
matching length once validation passed. -/
theorem labelsOf_length (a : MDAArgs) (h4 : xyLabelsBad a = false)
    (h5 : xyzLabelsBad a = false) :
    ∀ xys, xyFromArgs a = some xys →
      ∃ ls, labelsOf a = some ls ∧ ls.length = xys.length := by
  intro xys hxys
  rw [xyFromArgs] at hxys
  cases hxy : a.xy_positions with
  | some l =>
    rw [hxy] at hxys
    rcases Option.some.inj hxys with rfl
    cases hpl : a.position_labels with
    | none =>
      refine ⟨(List.range l.length).map (fun i : Nat => AxVal.i (i : Int)), ?_, by simp⟩
      simp [labelsOf, hpl, xyFromArgs, hxy]
    | some pl =>
      refine ⟨pl, by simp [labelsOf, hpl], ?_⟩
      rw [xyLabelsBad, hpl, hxy] at h4
      simp at h4
      omega
  | none =>
    rw [hxy] at hxys
    cases hxyz : a.xyz_positions with
    | none => rw [hxyz] at hxys; cases hxys
    | some ps =>
      rw [hxyz] at hxys
      rcases Option.some.inj hxys with rfl
      cases hpl : a.position_labels with
      | none =>
        refine ⟨(List.range (ps.map (fun p => (p.1, p.2.1))).length).map
          (fun i : Nat => AxVal.i (i : Int)), ?_, by simp⟩
        simp [labelsOf, hpl, xyFromArgs, hxy, hxyz]
      | some pl =>
        refine ⟨pl, by simp [labelsOf, hpl], ?_⟩
        rw [xyzLabelsBad, hpl, hxyz] at h5
        simp at h5
        rw [List.length_map]
        omega

/-- Shape of the pre-ramp z table. -/
theorem zposFromPositions_cases (a : MDAArgs) :
    (zposFromPositions a = none) ∨
    (∃ ps, a.xy_positions = none ∧ a.xyz_positions = some ps ∧
      zposFromPositions a = some (.per (ps.map (fun p => [p.2.2])))) := by
  rw [zposFromPositions]
  cases hxy : a.xy_positions with
  | some _ => exact Or.inl rfl
  | none =>
    cases hxyz : a.xyz_positions with
    | none => exact Or.inl rfl
    | some ps => exact Or.inr ⟨ps, rfl, rfl, rfl⟩

/-- Shape of the final z table: absent, a flat ramp with no positions, or
one uniform row per derived xy position. -/
theorem zPositionsOf_cases (a : MDAArgs) :
    (zPositionsOf a = none) ∨
    (∃ zvals, zPositionsOf a = some (.flat zvals) ∧ xyFromArgs a = none) ∨
    (∃ xys rows, xyFromArgs a = some xys ∧ zPositionsOf a = some (.per rows) ∧
      rows.length = xys.length ∧ ∀ r ∈ rows, r.length = (rows.headD []).length) := by
  by_cases hzs : hasZsteps a = true
  · rw [zPositionsOf, if_pos hzs]
    rcases zposFromPositions_cases a with hz0 | ⟨ps, hxy, hxyz, hz0⟩
    · rw [hz0]
      cases hxys : xyFromArgs a with
      | none => exact Or.inr (Or.inl ⟨zRel a, rfl, rfl⟩)
      | some xys =>
        refine Or.inr (Or.inr ⟨xys, xys.map (fun _ => zRel a), rfl, rfl, by simp, ?_⟩)
        exact rows_uniform xys (fun _ => zRel a) (zRel a).length (fun _ => rfl)
    · rw [hz0]
      refine Or.inr (Or.inr ⟨ps.map (fun p => (p.1, p.2.1)),
        (ps.map (fun p => [p.2.2])).map (fun r => (zRel a).map (fun v => r.headD 0 + v)),
        ?_, rfl, by simp, ?_⟩)
      · rw [xyFromArgs, hxy, hxyz]
      · exact rows_uniform (ps.map (fun p => [p.2.2]))
          (fun r => (zRel a).map (fun v => r.headD 0 + v)) (zRel a).length
          (fun r => by simp)
  · rw [zPositionsOf, if_neg hzs]
    rcases zposFromPositions_cases a with hz0 | ⟨ps, hxy, hxyz, hz0⟩
    · exact Or.inl hz0
    · rw [hz0]
      refine Or.inr (Or.inr ⟨ps.map (fun p => (p.1, p.2.1)), ps.map (fun p => [p.2.2]),
        ?_, rfl, by simp, ?_⟩)
      · rw [xyFromArgs, hxy, hxyz]
      · exact rows_uniform ps (fun p => [p.2.2]) 1 (fun p => rfl)

/-- The construction invariants the generator lemma needs, established by
the derivation block once validation passed. -/
theorem buildCtx_facts (a : MDAArgs) (h : mdCheck a = none) :
    (∀ xys, (buildCtx a).xy_positions = some xys →
      ∃ ls, (buildCtx a).position_labels = some ls ∧ ls.length = xys.length) ∧
    (∀ rows, (buildCtx a).z_positions = some (.per rows) →
      (∀ r ∈ rows, r.length = zCardCtx (buildCtx a)) ∧
        rows.length = ((buildCtx a).position_labels.getD []).length) ∧
    (∀ zvals, (buildCtx a).z_positions = some (.flat zvals) →
      (buildCtx a).xy_positions = none) ∧
    (∀ rows, (buildCtx a).z_positions = some (.per rows) →
      (buildCtx a).xy_positions.isSome = true) := by
  obtain ⟨f1, f2, f3, f4, f5, f6, f7⟩ := mdCheck_none_facts a h
  have hxyP : (buildCtx a).xy_positions = xyFromArgs a := rfl
  have hlabP : (buildCtx a).position_labels = labelsOf a := rfl
  have hzP : (buildCtx a).z_positions = zPositionsOf a := rfl
  have Hlab := labelsOf_length a f4 f5
  refine ⟨?_, ?_, ?_, ?_⟩
  · intro xys hxys
    obtain ⟨ls, hls, hlen⟩ := Hlab xys (hxyP ▸ hxys)
    exact ⟨ls, hlabP ▸ hls, hlen⟩
  · intro rows hrows
    rw [hzP] at hrows
    rcases zPositionsOf_cases a with hz | ⟨zvals, hz, -⟩ | ⟨xys, rows2, hxys, hz, hlen2, huni⟩
    · rw [hz] at hrows; cases hrows
    · rw [hz] at hrows; cases hrows
    · rw [hz] at hrows
      have hre : rows2 = rows := ZPositions.per.inj (Option.some.inj hrows)
      constructor
      · intro r hr
        have hcc : zCardCtx (buildCtx a) = (rows2.headD []).length := by
          simp [zCardCtx, hzP, hz]
        rw [hcc]
        exact huni r (by rw [hre]; exact hr)
      · obtain ⟨ls, hls, hlslen⟩ := Hlab xys hxys
        rw [hlabP, hls]
        simp only [Option.getD_some]
        rw [← hre, hlen2, hlslen]
  · intro zvals hflat
    rw [hzP] at hflat
    rw [hxyP]
    rcases zPositionsOf_cases a with hz | ⟨zvals2, hz, hxy⟩ | ⟨xys, rows2, hxys, hz, -, -⟩
    · rw [hz] at hflat; cases hflat
    · exact hxy
    · rw [hz] at hflat; cases hflat
  · intro rows hrows
    rw [hzP] at hrows
    rw [hxyP]
    rcases zPositionsOf_cases a with hz | ⟨zvals2, hz, hxy⟩ | ⟨xys, rows2, hxys, hz, -, -⟩
    · rw [hz] at hrows; cases hrows
    · rw [hz] at hrows; cases hrows
    · rw [hxys]; rfl

/-- The two sentinel tags are mutually exclusive. -/
theorem sink_not_acq (n : Notification) :
    (!isAcqFinishedNotification n && isDataSinkFinishedNotification n) =
      isDataSinkFinishedNotification n := by
  cases n <;> rfl

/-- A list with a satisfying element is non-empty (`Bool` form). -/
theorem any_and_not_isEmpty {α : Type} (l : List α) (p : α → Bool) :
    (!l.isEmpty && l.any p) = l.any p := by
  cases l <;> simp

/-- Dispatcher termination as a boolean function of the stream contents,
generalized over the two sentinel flags: the loop exits iff the stream is
non-empty and each sentinel was already flagged or occurs in the stream. -/
theorem dispatch_terminated_eq (futures : List (Option Nat)) (cb : Bool)
    (ef dsf : Bool) (ns : List Notification) :
    (dispatch_notifications futures cb ef dsf ns).terminated =
      (!ns.isEmpty && (ef || ns.any isAcqFinishedNotification)
                   && (dsf || ns.any isDataSinkFinishedNotification)) := by
  induction ns generalizing ef dsf with
  | nil => simp [dispatch_notifications]
  | cons n rest ih =>
    cases n <;> cases ef <;> cases dsf <;>
      simp_all [dispatch_notifications, isAcqFinishedNotification,
        isDataSinkFinishedNotification, any_and_not_isEmpty]

/-- Every consumed notification is fanned out to every live future and to
the user callback (when configured), in order. -/
theorem dispatch_fanout (futures : List (Option Nat)) (cb : Bool)
    (ef dsf : Bool) (ns : List Notification) :
    (dispatch_notifications futures cb ef dsf ns).delivered =
      (dispatch_notifications futures cb ef dsf ns).processed.flatMap
        (fun n => (liveIds futures).map (fun fid => (fid, n))) ∧
    (dispatch_notifications futures cb ef dsf ns).callbackCalls =
      (if cb then (dispatch_notifications futures cb ef dsf ns).processed else []) := by
  induction ns generalizing ef dsf with
  | nil => simp [dispatch_notifications]
  | cons n rest ih =>
    simp only [dispatch_notifications]
    by_cases hb : ((ef || isAcqFinishedNotification n) &&
        (dsf || (!isAcqFinishedNotification n && isDataSinkFinishedNotification n))) = true
    · rw [if_pos hb]
      cases cb <;> simp
    · rw [if_neg hb]
      have := ih (ef || isAcqFinishedNotification n)
        (dsf || (!isAcqFinishedNotification n && isDataSinkFinishedNotification n))
      cases cb <;> simp_all

/-! ## Claim theorems -/

section ClaimTheorems

attribute [local semireducible] Rat.add Rat.mul Rat.sub Rat.inv

/-- Claim C7: the dispatcher loop terminates exactly when both the
"all events finished" and "data sink finished" sentinels have each been
observed at least once, in either arrival order; while either is
unobserved it never terminates; and every notification received before
termination is forwarded to all live futures and to the user callback. -/
theorem C7_dispatcher_termination_and_fanout (futures : List (Option Nat)) (cb : Bool)
    (ns : List Notification) :
    ((dispatch_notifications futures cb false false ns).terminated = true ↔
      ((∃ n ∈ ns, isAcqFinishedNotification n = true) ∧
       (∃ n ∈ ns, isDataSinkFinishedNotification n = true))) ∧
    (dispatch_notifications futures cb false false ns).delivered =
      (dispatch_notifications futures cb false false ns).processed.flatMap
        (fun n => (liveIds futures).map (fun fid => (fid, n))) ∧
    (dispatch_notifications futures cb false false ns).callbackCalls =
      (if cb then (dispatch_notifications futures cb false false ns).processed else []) := by
  refine ⟨?_, (dispatch_fanout futures cb false false ns).1,
    (dispatch_fanout futures cb false false ns).2⟩
  rw [dispatch_terminated_eq]
  simp only [Bool.false_or, Bool.and_eq_true, List.any_eq_true]
  constructor
  · rintro ⟨⟨-, h1⟩, h2⟩
    exact ⟨h1, h2⟩
  · rintro ⟨⟨n, hn, h1⟩, h2⟩
    refine ⟨⟨?_, ⟨n, hn, h1⟩⟩, h2⟩
    cases ns with
    | nil => cases hn
    | cons m rest => simp

/-- Claim C8: whenever the engine reports that events are already
finished, `acquire` raises `AcqAlreadyCompleteException` synchronously
(for every submitted argument, including the `None` sentinel), producing
no new state: nothing is enqueued and no future is registered. -/
theorem C8_acquire_after_finish_raises (st : AcqState) (arg : Option EventsArg)
    (h : st.events_finished = true) :
    acquire st arg = .error (.alreadyComplete acqAlreadyCompleteMsg) := by
  simp [acquire, h]

theorem C8_witness :
    acquire ⟨[], [some 4], true, 5⟩ none =
        .error (.alreadyComplete acqAlreadyCompleteMsg) ∧
    acquire ⟨[], [some 4], true, 5⟩ (some (.single { axes := some [] })) =
        .error (.alreadyComplete acqAlreadyCompleteMsg) :=
  ⟨C8_acquire_after_finish_raises ⟨[], [some 4], true, 5⟩ none rfl,
   C8_acquire_after_finish_raises ⟨[], [some 4], true, 5⟩ (some (.single { axes := some [] })) rfl⟩

/-- Claim C10: calling `acquire` with `None` while the engine has not
finished enqueues the shutdown sentinel and returns no future: the future
registry and the future-id counter are untouched. -/
theorem C10_acquire_none_shutdown (st : AcqState) (h : st.events_finished = false) :
    ∃ st', acquire st none = .ok (st', none) ∧
      st'.event_queue = st.event_queue ++ [none] ∧
      st'.acq_futures = st.acq_futures ∧
      st'.next_future_id = st.next_future_id := by
  refine ⟨{ st with event_queue := st.event_queue ++ [none] }, ?_, rfl, rfl, rfl⟩
  simp [acquire, h]

theorem C10_witness :
    ∃ st', acquire ⟨[some (.single { axes := some [] })], [some 3], false, 7⟩ none
        = .ok (st', none) ∧
      st'.event_queue = [some (.single { axes := some [] }), none] ∧
      st'.acq_futures = [some 3] ∧
      st'.next_future_id = 7 := by
  obtain ⟨st', h1, h2, h3, h4⟩ :=
    C10_acquire_none_shutdown ⟨[some (.single { axes := some [] })], [some 3], false, 7⟩ rfl
  exact ⟨st', h1, h2, h3, h4⟩

/-- Claim C6, counterexample: validating `{"axes": {}, "row": 2}` yields
`{"axes": {"row": 2}, "row": 2}` (with a warning) — the deprecated value
is copied into `axes`, but the top-level `row` key remains, so the result
is not exactly `{"axes": {"row": 2}}` as the claim states. -/
theorem C6_counterexample :
    _validate_acq_dict { axes := some [], row := some (AxVal.i 2) } =
      .ok ({ axes := some [("row", AxVal.i 2)], row := some (AxVal.i 2) },
           [rowDeprecationWarning]) ∧
    ({ axes := some [("row", AxVal.i 2)], row := some (AxVal.i 2) } : RawEvent) ≠
      { axes := some [("row", AxVal.i 2)] } := by
  exact ⟨rfl, by decide⟩

/-- Claim C6, amended: for every event with an `axes` key and a deprecated
top-level `row` or `col` key, validation succeeds with a deprecation
warning (not an error), copying the `row` value into `axes["row"]` and the
`col` value into `axes["column"]` (never silently dropped); the top-level
keys themselves are left in place. -/
theorem C6_deprecated_row_folded (e : RawEvent) (ax : List (String × AxVal))
    (hax : e.axes = some ax) (hdep : e.row.isSome = true ∨ e.col.isSome = true) :
    ∃ e' ws, _validate_acq_dict e = .ok (e', ws) ∧ ws ≠ [] ∧
      e'.row = e.row ∧ e'.col = e.col ∧
      ∃ ax', e'.axes = some ax' ∧
        (∀ v, e.row = some v → axesGet "row" ax' = some v) ∧
        (∀ w, e.col = some w → axesGet "column" ax' = some w) := by
  cases hrow : e.row with
  | some v =>
    cases hcol : e.col with
    | none =>
      refine ⟨{ e with axes := some (axesInsert "row" v ax) }, [rowDeprecationWarning],
        ?_, ?_, ?_, ?_, ?_⟩
      · simp [_validate_acq_dict, hax, hrow, hcol]
      · simp
      · simpa using hrow
      · simpa using hcol
      · refine ⟨axesInsert "row" v ax, rfl, ?_, ?_⟩
        · intro v2 hv2
          rcases Option.some.inj hv2 with rfl
          exact axesGet_insert_self "row" v ax
        · intro w2 hw2
          cases hw2
    | some w =>
      refine ⟨{ e with axes := some (axesInsert "column" w (axesInsert "row" v ax)) },
        [rowDeprecationWarning, colDeprecationWarning], ?_, ?_, ?_, ?_, ?_⟩
      · simp [_validate_acq_dict, hax, hrow, hcol]
      · simp
      · simpa using hrow
      · simpa using hcol
      · refine ⟨axesInsert "column" w (axesInsert "row" v ax), rfl, ?_, ?_⟩
        · intro v2 hv2
          rcases Option.some.inj hv2 with rfl
          rw [axesGet_insert_ne "row" "column" w _ (by decide)]
          exact axesGet_insert_self "row" v ax
        · intro w2 hw2
          rcases Option.some.inj hw2 with rfl
          exact axesGet_insert_self "column" w _
  | none =>
    cases hcol : e.col with
    | none =>
      rw [hrow, hcol] at hdep
      rcases hdep with h | h <;> cases h
    | some w =>
      refine ⟨{ e with axes := some (axesInsert "column" w ax) }, [colDeprecationWarning],
        ?_, ?_, ?_, ?_, ?_⟩
      · simp [_validate_acq_dict, hax, hrow, hcol]
      · simp
      · simpa using hrow
      · simpa using hcol
      · refine ⟨axesInsert "column" w ax, rfl, ?_, ?_⟩
        · intro v2 hv2
          cases hv2
        · intro w2 hw2
          rcases Option.some.inj hw2 with rfl
          exact axesGet_insert_self "column" w ax

theorem C6_amended_witness :
    (∃ e' ws, _validate_acq_dict
        { axes := some [], row := some (AxVal.i 2), col := some (AxVal.i 7) } = .ok (e', ws) ∧
      ws ≠ [] ∧ e'.row = some (AxVal.i 2) ∧ e'.col = some (AxVal.i 7) ∧
      ∃ ax', e'.axes = some ax' ∧
        (∀ v, (some (AxVal.i 2) : Option AxVal) = some v → axesGet "row" ax' = some v) ∧
        (∀ w, (some (AxVal.i 7) : Option AxVal) = some w → axesGet "column" ax' = some w)) ∧
    (∃ e' ws, _validate_acq_dict { axes := some [], col := some (AxVal.i 3) } = .ok (e', ws) ∧
      ws ≠ [] ∧ e'.row = none ∧ e'.col = some (AxVal.i 3) ∧
      ∃ ax', e'.axes = some ax' ∧
        (∀ v, (none : Option AxVal) = some v → axesGet "row" ax' = some v) ∧
        (∀ w, (some (AxVal.i 3) : Option AxVal) = some w → axesGet "column" ax' = some w)) :=
  ⟨C6_deprecated_row_folded
      { axes := some [], row := some (AxVal.i 2), col := some (AxVal.i 7) } [] rfl (Or.inl rfl),
   C6_deprecated_row_folded { axes := some [], col := some (AxVal.i 3) } [] rfl (Or.inr rfl)⟩

/-- Claim C1: for every valid order/axis-parameter combination (each
enabled axis's letter occurring exactly once in the order string), the
generated sequence length equals the product of the enabled axes'
cardinalities (time points, positions, channels, z steps), and every
event's axes dict contains exactly the enabled axis keys, in nesting
order. -/
theorem C1_product_length_and_axis_keys (a : MDAArgs) (evs : List Event)
    (hok : multi_d_acquisition_events a = .ok evs)
    (hT : letterActive (buildCtx a) 't' = true → (lowerOrder a).count 't' = 1)
    (hZ : letterActive (buildCtx a) 'z' = true → (lowerOrder a).count 'z' = 1)
    (hP : letterActive (buildCtx a) 'p' = true → (lowerOrder a).count 'p' = 1)
    (hC : letterActive (buildCtx a) 'c' = true → (lowerOrder a).count 'c' = 1) :
    evs.length =
        (if letterActive (buildCtx a) 't' then letterCard (buildCtx a) 't' else 1) *
        ((if letterActive (buildCtx a) 'p' then letterCard (buildCtx a) 'p' else 1) *
        ((if letterActive (buildCtx a) 'c' then letterCard (buildCtx a) 'c' else 1) *
        (if letterActive (buildCtx a) 'z' then letterCard (buildCtx a) 'z' else 1)))
    ∧ ∀ e ∈ evs, e.axes.map Prod.fst =
        (lowerOrder a).filterMap (fun ch =>
          if letterActive (buildCtx a) ch then some (letterKey ch) else none) := by
  have hchk : mdCheck a = none := by
    cases hmc : mdCheck a with
    | none => rfl
    | some m =>
      simp [multi_d_acquisition_events, hmc] at hok
  have hevs : evs = generate_events (buildCtx a) emptyEvent (lowerOrder a) := by
    simp only [multi_d_acquisition_events, hchk] at hok
    exact (Except.ok.inj hok).symm
  obtain ⟨Hlab, Hrows, Hflat, HperXY⟩ := buildCtx_facts a hchk
  obtain ⟨f1, f2, f3, f4, f5, f6, f7⟩ := mdCheck_none_facts a hchk
  have hnodup : ((lowerOrder a).filterMap (fun ch =>
      if letterActive (buildCtx a) ch then some ch else none)).Nodup := by
    rw [List.nodup_iff_count_le_one]
    intro x
    rw [count_filterMap_active]
    by_cases hax : letterActive (buildCtx a) x = true
    · rw [if_pos hax]
      rcases letterActive_mem _ x hax with rfl | rfl | rfl | rfl
      · simp [hT hax]
      · simp [hZ hax]
      · simp [hP hax]
      · simp [hC hax]
    · rw [if_neg hax]
      omega
  have h2init : ∀ ch ∈ lowerOrder a, letterActive (buildCtx a) ch = true →
      letterKey ch ∉ emptyEvent.axes.map Prod.fst := by
    intro ch _ _
    simp [emptyEvent]
  have h3init : ∀ rows, (buildCtx a).z_positions = some (.per rows) → 'z' ∈ lowerOrder a →
      ((∃ lv, axesGet "position" emptyEvent.axes = some lv ∧
          lv ∈ (buildCtx a).position_labels.getD [])
       ∨ ('p' ∈ lowerOrder a ∧
          listIndexOf 'p' (lowerOrder a) < listIndexOf 'z' (lowerOrder a) ∧
          (buildCtx a).xy_positions.isSome = true)) := by
    intro rows hper hzin
    right
    have hxyS : (buildCtx a).xy_positions.isSome = true := HperXY rows hper
    have hpact : letterActive (buildCtx a) 'p' = true := by
      simp [letterActive, hxyS]
    have hpin : 'p' ∈ lowerOrder a := by
      have hcount := hP hpact
      exact List.count_pos_iff.mp (by omega)
    refine ⟨hpin, ?_, hxyS⟩
    have hne2 : listIndexOf 'p' (lowerOrder a) ≠ listIndexOf 'z' (lowerOrder a) :=
      listIndexOf_injOn 'p' 'z' _ hpin hzin (by decide)
    have hnot : ¬(listIndexOf 'z' (lowerOrder a) < listIndexOf 'p' (lowerOrder a)) :=
      fun hlt => f2 ⟨hpin, hzin, hlt⟩
    omega
  have h4init : ∀ zvals, (buildCtx a).z_positions = some (.flat zvals) →
      axesGet "position" emptyEvent.axes = none := fun _ _ => rfl
  have hmain := generate_events_spec (buildCtx a) Hlab Hrows Hflat (lowerOrder a)
    emptyEvent hnodup h2init h3init h4init
  constructor
  · rw [hevs, hmain.1, filterMap_active_map (buildCtx a) (letterCard (buildCtx a)) (lowerOrder a)]
    have hperm : ((lowerOrder a).filterMap (fun ch =>
        if letterActive (buildCtx a) ch then some ch else none)).Perm
        (['t', 'p', 'c', 'z'].filterMap (fun ch =>
          if letterActive (buildCtx a) ch then some ch else none)) := by
      rw [List.perm_iff_count]
      intro x
      rw [count_filterMap_active, count_filterMap_active]
      by_cases hax : letterActive (buildCtx a) x = true
      · rw [if_pos hax, if_pos hax]
        rcases letterActive_mem _ x hax with rfl | rfl | rfl | rfl
        · rw [hT hax]; decide
        · rw [hZ hax]; decide
        · rw [hP hax]; decide
        · rw [hC hax]; decide
      · rw [if_neg hax, if_neg hax]
    rw [List.Perm.prod_eq (hperm.map (letterCard (buildCtx a)))]
    by_cases a1 : letterActive (buildCtx a) 't' = true <;>
      by_cases a2 : letterActive (buildCtx a) 'p' = true <;>
        by_cases a3 : letterActive (buildCtx a) 'c' = true <;>
          by_cases a4 : letterActive (buildCtx a) 'z' = true <;>
            simp [a1, a2, a3, a4, List.filterMap_cons]
  · intro e he
    rw [hevs] at he
    rw [hmain.2 e he]
    simp [emptyEvent]

theorem C1_witness :
    ∃ evs, multi_d_acquisition_events mdaC1Args = .ok evs ∧ evs.length = 24 ∧
      ∀ e ∈ evs, e.axes.map Prod.fst = ["time", "channel", "z"] := by
  obtain ⟨evs, hok⟩ : ∃ evs, multi_d_acquisition_events mdaC1Args = .ok evs := ⟨_, rfl⟩
  have h := C1_product_length_and_axis_keys mdaC1Args evs hok
    (by intro hx; decide) (by intro hx; decide) (by intro hx; decide) (by intro hx; decide)
  refine ⟨evs, hok, ?_, ?_⟩
  · rw [h.1]
    decide
  · intro e he
    rw [h.2 e he]
    decide

/-- Claim C2: for every time index, a list `time_interval_s` gives
`min_start_time` equal to the cumulative sum of the list up to and
including the index; a scalar gives `index * interval`, and the
`min_start_time` key is omitted entirely when the scalar is exactly zero.
Stated both for a single time-loop iteration (from any accumulated event
without a pending `min_start_time`) and for the full pipeline with
`order="t"`. -/
theorem C2_time_min_start_time (n : Int) (ti : TimeInterval) (hn : 0 < n)
    (hlen : ∀ l, ti = .list l → (l.length : Int) = n) :
    (∀ (e : Event) (i : Nat), e.min_start_time = none → i < n.toNat →
        (timeBranchEvent ti e i).min_start_time = specTimeMST ti i) ∧
    multi_d_acquisition_events { num_time_points := some n, time_interval_s := ti, order := "t" }
      = .ok ((List.range n.toNat).map (fun i : Nat =>
          ({ axes := [("time", AxVal.i (i : Int))], min_start_time := specTimeMST ti i } : Event))) := by
  have hlen' : ∀ l, ti = .list l → l.length = n.toNat := by
    intro l hl
    have := hlen l hl
    omega
  constructor
  · intro e i hmst hi
    cases ti with
    | scalar s =>
      by_cases hs : s = 0
      · simp [timeBranchEvent, specTimeMST, hs, hmst]
      · simp [timeBranchEvent, specTimeMST, hs]
    | list l =>
      have hil : i < l.length := by rw [hlen' l rfl]; exact hi
      simp [timeBranchEvent, specTimeMST, cumsum_getD l i hil]
  · have hchk : mdCheck { num_time_points := some n, time_interval_s := ti, order := "t" } = none := by
      cases ti with
      | scalar s => rfl
      | list l =>
        have hl := hlen l rfl
        simp [mdCheck, tiLenBad, lowerOrder, hasZtruthy, truthy, hasZsteps, allZSome,
          xyLabelsBad, xyzLabelsBad, ← hl]
    have hT : tGuard (buildCtx { num_time_points := some n, time_interval_s := ti, order := "t" }) 't' := by
      refine ⟨rfl, ?_⟩
      simp [tActiveCtx, buildCtx, hn]
    simp only [multi_d_acquisition_events, hchk]
    have hord : lowerOrder { num_time_points := some n, time_interval_s := ti, order := "t" } = ['t'] := rfl
    rw [hord]
    rw [show generate_events (buildCtx { num_time_points := some n, time_interval_s := ti, order := "t" })
        emptyEvent ['t']
      = (tEvents (buildCtx { num_time_points := some n, time_interval_s := ti, order := "t" })
          emptyEvent).flatMap (fun e' =>
            generate_events (buildCtx { num_time_points := some n, time_interval_s := ti, order := "t" }) e' [])
      from by rw [generate_events, if_pos hT]]
    simp only [generate_events, List.flatMap_singleton']
    unfold tEvents timePointsNat
    congr 1
    apply List.map_congr_left
    intro i hi
    have hi' : i < n.toNat := by simpa using hi
    cases ti with
    | scalar s =>
      by_cases hs : s = 0
      · simp [timeBranchEvent, specTimeMST, hs, emptyEvent, axesInsert, buildCtx]
      · simp [timeBranchEvent, specTimeMST, hs, emptyEvent, axesInsert, buildCtx]
    | list l =>
      have hil : i < l.length := by rw [hlen' l rfl]; exact hi'
      simp [timeBranchEvent, specTimeMST, cumsum_getD l i hil, emptyEvent, axesInsert, buildCtx]

theorem C2_witness :
    multi_d_acquisition_events
        { num_time_points := some 3, time_interval_s := .list [5, 2, 3], order := "t" }
      = .ok [ { axes := [("time", AxVal.i 0)], min_start_time := some 5 },
              { axes := [("time", AxVal.i 1)], min_start_time := some 7 },
              { axes := [("time", AxVal.i 2)], min_start_time := some 10 } ] := by
  have h := (C2_time_min_start_time 3 (.list [5, 2, 3]) (by decide)
    (by intro l hl; cases hl; decide)).2
  rw [h]
  decide

/-- Claim C3: with `xyz_positions` together with `z_start`/`z_end`/`z_step`
(order `"pz"`, default labels), every generated event's literal `z` value
is that event's position's own z coordinate plus an element of the shared
relative ramp, the per-position ramp being selected via the
`axes["position"]` label lookup. -/
theorem C3_relative_z_per_position (pts : List (ℚ × ℚ × ℚ)) (zs ze zst : ℚ)
    (htr : ¬(zs = 0 ∧ zst = 0 ∧ ze = 0)) (hstep : zst ≠ 0) :
    multi_d_acquisition_events (mdaXYZArgs pts zs ze zst)
      = .ok ((List.range pts.length).flatMap (fun i : Nat =>
          (List.range (arangeLen zs (ze + zst) zst)).map (fun j : Nat =>
            ({ axes := [("position", AxVal.i (i : Int)), ("z", AxVal.i (j : Int))],
               x := some (pts.getD i (0, 0, 0)).1,
               y := some (pts.getD i (0, 0, 0)).2.1,
               z := some (ZVal.num ((pts.getD i (0, 0, 0)).2.2 +
                 (zs + (j : ℚ) * zst))) } : Event)))) := by
  have hasZ : hasZtruthy (mdaXYZArgs pts zs ze zst) = true := by
    by_cases h1 : zs = 0
    · by_cases h2 : zst = 0
      · have h3 : ze ≠ 0 := fun h3 => htr ⟨h1, h2, h3⟩
        simp [hasZtruthy, truthy, h3, mdaXYZArgs]
      · simp [hasZtruthy, truthy, h2, mdaXYZArgs]
    · simp [hasZtruthy, truthy, h1, mdaXYZArgs]
  have hord : lowerOrder (mdaXYZArgs pts zs ze zst) = ['p', 'z'] := rfl
  have hchk : mdCheck (mdaXYZArgs pts zs ze zst) = none := by
    rw [mdCheck]
    simp [hord, listIndexOf, tiLenBad, xyLabelsBad, xyzLabelsBad, hasZsteps, allZSome,
      hstep, mdaXYZArgs]
  simp only [multi_d_acquisition_events, hchk]
  rw [hord]
  have hxy : (buildCtx (mdaXYZArgs pts zs ze zst)).xy_positions
      = some (pts.map (fun p => (p.1, p.2.1))) := rfl
  have hzp : (buildCtx (mdaXYZArgs pts zs ze zst)).z_positions
      = some (.per (pts.map (fun p =>
          (arange zs (ze + zst) zst).map (fun v => p.2.2 + v)))) := by
    rw [show (buildCtx (mdaXYZArgs pts zs ze zst)).z_positions
        = zPositionsOf (mdaXYZArgs pts zs ze zst) from rfl]
    rw [zPositionsOf, if_pos (by rw [hasZsteps, hasZ]; rfl)]
    show some (ZPositions.per ((pts.map (fun p => [p.2.2])).map
        (fun r => (zRel (mdaXYZArgs pts zs ze zst)).map (fun v => r.headD 0 + v)))) = _
    rw [List.map_map]
    refine congrArg some (congrArg ZPositions.per ?_)
    apply List.map_congr_left
    intro p hp
    rw [show zRel (mdaXYZArgs pts zs ze zst) = arange zs (ze + zst) zst from rfl]
    simp
  have hlab : (buildCtx (mdaXYZArgs pts zs ze zst)).position_labels
      = some ((List.range (pts.map (fun p => (p.1, p.2.1))).length).map
          (fun j : Nat => AxVal.i (j : Int))) := rfl
  rw [generate_pz (pts.map (fun p => (p.1, p.2.1)))
    (pts.map (fun p => (arange zs (ze + zst) zst).map (fun v => p.2.2 + v))) _ hxy hzp hlab]
  rw [List.length_map]
  refine congrArg Except.ok ?_
  apply List.flatMap_congr
  intro i hi
  have hiN : i < pts.length := List.mem_range.mp hi
  have hrow : (pts.map (fun p => (arange zs (ze + zst) zst).map (fun v => p.2.2 + v))).getD i []
      = (arange zs (ze + zst) zst).map (fun v => (pts.getD i (0, 0, 0)).2.2 + v) := by
    rw [List.getD_eq_getElem _ _ (by simpa using hiN), List.getElem_map,
      List.getD_eq_getElem _ _ hiN]
  have hxyi : (pts.map (fun p => (p.1, p.2.1))).getD i (0, 0)
      = ((pts.getD i (0, 0, 0)).1, (pts.getD i (0, 0, 0)).2.1) := by
    rw [List.getD_eq_getElem _ _ (by simpa using hiN), List.getElem_map,
      List.getD_eq_getElem _ _ hiN]
  rw [hrow, List.length_map, arange_length]
  apply List.map_congr_left
  intro j hj
  have hjL : j < arangeLen zs (ze + zst) zst := List.mem_range.mp hj
  have hrj : ((arange zs (ze + zst) zst).map
      (fun v => (pts.getD i (0, 0, 0)).2.2 + v)).getD j 0
      = (pts.getD i (0, 0, 0)).2.2 + (zs + (j : ℚ) * zst) := by
    rw [arange, List.map_map]
    exact getD_map_range _ j _ 0 hjL
  rw [hxyi, hrj]

theorem C3_witness :
    multi_d_acquisition_events (mdaXYZArgs [(0, 0, 10), (0, 0, 20)] (-1) 1 1)
      = .ok [ { axes := [("position", AxVal.i 0), ("z", AxVal.i 0)],
                x := some 0, y := some 0, z := some (ZVal.num 9) },
              { axes := [("position", AxVal.i 0), ("z", AxVal.i 1)],
                x := some 0, y := some 0, z := some (ZVal.num 10) },
              { axes := [("position", AxVal.i 0), ("z", AxVal.i 2)],
                x := some 0, y := some 0, z := some (ZVal.num 11) },
              { axes := [("position", AxVal.i 1), ("z", AxVal.i 0)],
                x := some 0, y := some 0, z := some (ZVal.num 19) },
              { axes := [("position", AxVal.i 1), ("z", AxVal.i 1)],
                x := some 0, y := some 0, z := some (ZVal.num 20) },
              { axes := [("position", AxVal.i 1), ("z", AxVal.i 2)],
                x := some 0, y := some 0, z := some (ZVal.num 21) } ] := by
  have h := C3_relative_z_per_position [(0, 0, 10), (0, 0, 20)] (-1) 1 1
    (by decide) (by decide)
  rw [h]
  decide

/-- Claim C4: each of the four conditions — both position arrays
supplied; an order string with "p" after "z"; a list `time_interval_s`
whose length differs from `num_time_points`; `position_labels` whose
length differs from the supplied position array — makes
`multi_d_acquisition_events` raise, and no events are produced. -/
theorem C4_validation_errors (a : MDAArgs)
    (h : (a.xy_positions.isSome = true ∧ a.xyz_positions.isSome = true) ∨
         ('p' ∈ lowerOrder a ∧ 'z' ∈ lowerOrder a ∧
            listIndexOf 'z' (lowerOrder a) < listIndexOf 'p' (lowerOrder a)) ∨
         (∃ l, a.time_interval_s = .list l ∧ a.num_time_points ≠ some (l.length : Int)) ∨
         (∃ pl, a.position_labels = some pl ∧
            ((∃ xys, a.xy_positions = some xys ∧ xys.length ≠ pl.length) ∨
             (∃ ps, a.xyz_positions = some ps ∧ ps.length ≠ pl.length)))) :
    ∃ msg, multi_d_acquisition_events a = .error msg := by
  cases hm : mdCheck a with
  | some m => exact ⟨m, by simp [multi_d_acquisition_events, hm]⟩
  | none =>
    exfalso
    rw [mdCheck] at hm
    by_cases c1 : (a.xy_positions.isSome && a.xyz_positions.isSome) = true
    · rw [if_pos c1] at hm; cases hm
    · rw [if_neg c1] at hm
      by_cases c2 : ('p' ∈ lowerOrder a ∧ 'z' ∈ lowerOrder a ∧
          listIndexOf 'z' (lowerOrder a) < listIndexOf 'p' (lowerOrder a))
      · rw [if_pos c2] at hm; cases hm
      · rw [if_neg c2] at hm
        by_cases c3 : tiLenBad a = true
        · rw [if_pos c3] at hm; cases hm
        · rw [if_neg c3] at hm
          by_cases c4 : xyLabelsBad a = true
          · rw [if_pos c4] at hm; cases hm
          · rw [if_neg c4] at hm
            by_cases c5 : xyzLabelsBad a = true
            · rw [if_pos c5] at hm; cases hm
            · rcases h with ⟨hxy, hxyz⟩ | hpz | ⟨l, htl, hne⟩ | ⟨pl, hpl, hcase⟩
              · exact c1 (by simp [hxy, hxyz])
              · exact c2 hpz
              · exact c3 (by simpa [tiLenBad, htl] using hne)
              · rcases hcase with ⟨xys, hxys, hlen⟩ | ⟨ps, hps, hlen⟩
                · exact c4 (by simpa [xyLabelsBad, hpl, hxys] using hlen)
                · exact c5 (by simpa [xyzLabelsBad, hpl, hps] using hlen)

theorem C4_witness :
    (∃ m, multi_d_acquisition_events
        { xy_positions := some [(0, 0)], xyz_positions := some [(0, 0, 0)] } = .error m) ∧
    (∃ m, multi_d_acquisition_events { order := "zp" } = .error m) ∧
    (∃ m, multi_d_acquisition_events
        { num_time_points := some 3, time_interval_s := .list [1, 2] } = .error m) ∧
    (∃ m, multi_d_acquisition_events
        { xy_positions := some [(0, 0)],
          position_labels := some [AxVal.s "a", AxVal.s "b"] } = .error m) :=
  ⟨C4_validation_errors _ (Or.inl (by decide)),
   C4_validation_errors _ (Or.inr (Or.inl (by decide))),
   C4_validation_errors _ (Or.inr (Or.inr (Or.inl ⟨[1, 2], rfl, by decide⟩))),
   C4_validation_errors _ (Or.inr (Or.inr (Or.inr
     ⟨[AxVal.s "a", AxVal.s "b"], rfl, Or.inl ⟨[(0, 0)], rfl, by decide⟩⟩)))⟩

/-- Claim C5: the code violates the all-or-nothing rule for the z
parameters: `z_start=0` supplied alone is falsy under `any([...])`, so no
error is raised and a single event without any z axis is returned, even
though the source's own comment says all three must then be provided. -/
theorem C5_zstart_zero_no_error :
    multi_d_acquisition_events { z_start := some 0 } = .ok [emptyEvent] := rfl

/-- Claim C9: generation is deterministic and each emitted event is an
independent deep copy. Running the identity-instrumented generator from
any two allocation states erases to the same event sequence — the one the
plain call returns — and within a run no two emitted events share an
object identity, so mutating one event cannot affect a sibling. -/
theorem C9_deterministic_independent_copies (a : MDAArgs) (evs : List Event) (k1 k2 : Nat)
    (hok : multi_d_acquisition_events a = .ok evs) :
    ∃ l1 l2, multi_d_events_ids a k1 = some l1 ∧ multi_d_events_ids a k2 = some l2 ∧
      l1.map Prod.fst = evs ∧ l2.map Prod.fst = evs ∧
      (l1.map Prod.snd).Nodup ∧ (l2.map Prod.snd).Nodup := by
  have hchk : mdCheck a = none := by
    cases hmc : mdCheck a with
    | none => rfl
    | some m => simp [multi_d_acquisition_events, hmc] at hok
  have hevs : evs = generate_events (buildCtx a) emptyEvent (lowerOrder a) := by
    simp only [multi_d_acquisition_events, hchk] at hok
    exact (Except.ok.inj hok).symm
  refine ⟨(generate_events_ids (buildCtx a) (emptyEvent, k1) (lowerOrder a) (k1 + 1)).1,
          (generate_events_ids (buildCtx a) (emptyEvent, k2) (lowerOrder a) (k2 + 1)).1,
          ?_, ?_, ?_, ?_, ?_, ?_⟩
  · simp only [multi_d_events_ids, hchk]
  · simp only [multi_d_events_ids, hchk]
  · rw [generate_events_ids_map_fst]
    exact hevs.symm
  · rw [generate_events_ids_map_fst]
    exact hevs.symm
  · exact (generate_events_ids_spec (buildCtx a) (lowerOrder a) emptyEvent k1 (k1 + 1)
      (Nat.lt_succ_self _)).2.2
  · exact (generate_events_ids_spec (buildCtx a) (lowerOrder a) emptyEvent k2 (k2 + 1)
      (Nat.lt_succ_self _)).2.2

theorem C9_witness :
    ∃ l1 l2, multi_d_events_ids { num_time_points := some 2 } 0 = some l1 ∧
      multi_d_events_ids { num_time_points := some 2 } 5 = some l2 ∧
      l1.map Prod.fst = [ { axes := [("time", AxVal.i 0)] }, { axes := [("time", AxVal.i 1)] } ] ∧
      l2.map Prod.fst = [ { axes := [("time", AxVal.i 0)] }, { axes := [("time", AxVal.i 1)] } ] ∧
      (l1.map Prod.snd).Nodup ∧ (l2.map Prod.snd).Nodup :=
  C9_deterministic_independent_copies { num_time_points := some 2 }
    [ { axes := [("time", AxVal.i 0)] }, { axes := [("time", AxVal.i 1)] } ] 0 5 (by decide)

end ClaimTheorems

end PycroManager
